import Mathlib

/-!
Verification of the optimization core of the ProjetRO repository.

The repository bundles five student optimization exercises.  This file gives a
shallow embedding, in Lean, of the parts of the source code that carry the
algorithmic content: the greedy fallback solver and the MILP model builder of
the student-assignment project, the min-cost multi-modal flow model builder,
the max-flow model builder, the blending model builder with its JSON
persistence layer, and the vertex-cover input validation.  Python dictionaries
are embedded as association lists with insert-or-replace update (preserving
insertion order, as Python dicts do), floats as rationals, and exceptions as
an explicit `Except` layer.
-/

namespace ProjetRO

/-! ### Association lists mirroring Python `dict` semantics -/

/-- Python dict assignment `d[k] = v`: replace in place if the key is present,
append otherwise (Python dicts preserve insertion order). -/
def dinsert {α β : Type} [DecidableEq α] (k : α) (v : β) : List (α × β) → List (α × β)
  | [] => [(k, v)]
  | (a, b) :: t => if a = k then (a, v) :: t else (a, b) :: dinsert k v t

/-- Python dict lookup `d.get(k)`: first (and, for dicts, only) binding. -/
def dlookup {α β : Type} [DecidableEq α] (k : α) : List (α × β) → Option β
  | [] => none
  | (a, b) :: t => if a = k then some b else dlookup k t

/-- Keys of an association list, in order. -/
def dkeys {α β : Type} (d : List (α × β)) : List α := d.map Prod.fst

/-! ### Assignment family: data model (`Ahmed_Saad/src/model/data_models.py`) -/

/-- `Student` dataclass: id, name, preferences (project id to score, a dict in
insertion order), and the incompatibility list. -/
structure Student where
  id : ℤ
  name : String
  preferences : List (ℤ × ℤ)
  incompatible_with : List ℤ
deriving DecidableEq, Repr

/-- `Project` dataclass. -/
structure Project where
  id : ℤ
  name : String
  capacity_min : ℤ
  capacity_max : ℤ
deriving DecidableEq, Repr

/-- `AssignmentResult` dataclass: the per-solve solution record. -/
structure AssignmentResult where
  status : String
  objective_value : ℚ
  assignments : List (ℤ × List ℤ)
  student_assignments : List (ℤ × ℤ)
  solve_time : ℚ
deriving DecidableEq, Repr

/-! ### Greedy fallback solver (`Ahmed_Saad/src/model/mock_solver.py`)

`MockSolver.solve` sorts students by ascending id (`sorted` is a stable sort,
embedded as a stable insertion sort), sorts each student's preference items by
descending score (again stable), assigns the first preferred project with room,
falls back to the first project in declaration order with room, and finally
reports `OPTIMAL (MOCK)` or `INFEASIBLE (MOCK)` depending on whether the
student-assignment dict has as many entries as the student list. -/

/-- Stable insertion step for `sorted(students, key=lambda x: x.id)`. -/
def insertById (s : Student) : List Student → List Student
  | [] => [s]
  | t :: ts => if s.id ≤ t.id then s :: t :: ts else t :: insertById s ts

/-- `sorted(students, key=lambda x: x.id)`: stable ascending sort by id. -/
def sortStudentsById : List Student → List Student
  | [] => []
  | s :: ts => insertById s (sortStudentsById ts)

/-- Stable insertion step for `sorted(..., key=item[1], reverse=True)`. -/
def insertByScoreDesc (e : ℤ × ℤ) : List (ℤ × ℤ) → List (ℤ × ℤ)
  | [] => [e]
  | b :: t => if e.2 ≥ b.2 then e :: b :: t else b :: insertByScoreDesc e t

/-- `sorted(s.preferences.items(), key=lambda item: item[1], reverse=True)`:
stable descending sort of preference items by score. -/
def sortPrefsDesc : List (ℤ × ℤ) → List (ℤ × ℤ)
  | [] => []
  | e :: t => insertByScoreDesc e (sortPrefsDesc t)

/-- `next((p for p in projects if p.id == pid), None)`. -/
def findProject (projects : List Project) (pid : ℤ) : Option Project :=
  projects.find? (fun p => p.id == pid)

/-- Number of students currently assigned to project `pid`:
`len(assignments[pid])` (the key is always initialized, so a missing key — the
`getD []` default — cannot occur for ids of existing projects). -/
def assignedCount (assignments : List (ℤ × List ℤ)) (pid : ℤ) : ℤ :=
  ((dlookup pid assignments).getD []).length

/-- The condition `proj and len(assignments[pid]) < proj.capacity_max` of the
preference loop. -/
def prefHasRoom (projects : List Project) (assignments : List (ℤ × List ℤ))
    (pid : ℤ) : Bool :=
  match findProject projects pid with
  | some proj => assignedCount assignments pid < proj.capacity_max
  | none => false

/-- Mutable loop state of `MockSolver.solve`. -/
structure MockState where
  assignments : List (ℤ × List ℤ)
  student_assignments : List (ℤ × ℤ)
  obj_val : ℚ
deriving Repr

/-- The preference loop: the first entry of the sorted preference list whose
project exists and has spare capacity. -/
def pickPreferred (projects : List Project) (assignments : List (ℤ × List ℤ))
    (prefs : List (ℤ × ℤ)) : Option (ℤ × ℤ) :=
  (sortPrefsDesc prefs).find? (fun e => prefHasRoom projects assignments e.1)

/-- The fallback loop: the first project in declaration order with room. -/
def pickFallback (projects : List Project) (assignments : List (ℤ × List ℤ)) :
    Option Project :=
  projects.find? (fun p => assignedCount assignments p.id < p.capacity_max)

/-- Record an assignment of student `sid` to project `pid` adding `score` to
the objective. -/
def recordAssignment (st : MockState) (sid pid : ℤ) (score : ℚ) : MockState :=
  { assignments :=
      dinsert pid (((dlookup pid st.assignments).getD []) ++ [sid]) st.assignments,
    student_assignments := dinsert sid pid st.student_assignments,
    obj_val := st.obj_val + score }

/-- Body of the per-student loop of `MockSolver.solve`. -/
def mockStep (projects : List Project) (st : MockState) (s : Student) : MockState :=
  match pickPreferred projects st.assignments s.preferences with
  | some e => recordAssignment st s.id e.1 (e.2 : ℚ)
  | none =>
    match pickFallback projects st.assignments with
    | some p => recordAssignment st s.id p.id 0
    | none => st

/-- Loop state at the end of `MockSolver.solve`: assignments initialized to
`{p.id: [] for p in projects}`, then one pass over the students sorted by id. -/
def mockFinal (students : List Student) (projects : List Project) : MockState :=
  (sortStudentsById students).foldl (mockStep projects)
    { assignments := projects.foldl (fun d p => dinsert p.id [] d) [],
      student_assignments := [], obj_val := 0 }

/-- `MockSolver.solve`, minus the `time.sleep` simulation of work. -/
def mockSolve (students : List Student) (projects : List Project) :
    AssignmentResult :=
  let fin := mockFinal students projects
  if fin.student_assignments.length = students.length then
    { status := "OPTIMAL (MOCK)", objective_value := fin.obj_val,
      assignments := fin.assignments,
      student_assignments := fin.student_assignments, solve_time := 1 }
  else
    { status := "INFEASIBLE (MOCK)", objective_value := fin.obj_val,
      assignments := fin.assignments,
      student_assignments := fin.student_assignments, solve_time := 1 }

/-! ### Reference greedy algorithm (spec wording, §4.4)

The spec describes the fallback as: for each student (ascending id) pick the
project with the highest personal preference score that still has spare
capacity; ties are resolved in favor of the earliest preference entry, which
is what a stable descending sort produces. -/

/-- The entry with the highest score satisfying `p`, earliest entry winning
ties: the spec's "project with the highest personal preference score that
still has spare capacity". -/
def highestScoreSatisfying (p : ℤ × ℤ → Bool) : List (ℤ × ℤ) → Option (ℤ × ℤ)
  | [] => none
  | e :: t =>
    if p e then
      match highestScoreSatisfying p t with
      | none => some e
      | some b => if b.2 > e.2 then some b else some e
    else highestScoreSatisfying p t

/-- Per-student step of the reference greedy algorithm. -/
def refStep (projects : List Project) (st : MockState) (s : Student) : MockState :=
  match highestScoreSatisfying (fun e => prefHasRoom projects st.assignments e.1)
      s.preferences with
  | some e => recordAssignment st s.id e.1 (e.2 : ℚ)
  | none =>
    match pickFallback projects st.assignments with
    | some p => recordAssignment st s.id p.id 0
    | none => st

/-- The reference greedy algorithm of spec §4.4: students in ascending id
order, each to its highest-scored project with spare capacity, else the first
project in declaration order with spare capacity at score 0. -/
def refSolve (students : List Student) (projects : List Project) : MockState :=
  (sortStudentsById students).foldl (refStep projects)
    { assignments := projects.foldl (fun d p => dinsert p.id [] d) [],
      student_assignments := [], obj_val := 0 }

/-- Descending order of the score components. -/
def ScoreSortedDesc (l : List (ℤ × ℤ)) : Prop :=
  l.Pairwise (fun x y => x.2 ≥ y.2)

/-! ### Canonical linear models

The external engine of §6 receives variables (with type and bounds), a linear
objective and linear constraints; we represent a constraint as a coefficient
list, a comparison operator and a right-hand side, evaluated against a
valuation of the decision variables. -/

/-- Comparison operator of a linear constraint. -/
inductive Comparison
  | le
  | ge
  | eq
deriving DecidableEq, Repr

/-- One linear constraint over variables indexed by `κ`. -/
structure LinCon (κ : Type) where
  coeffs : List (ℚ × κ)
  cmp : Comparison
  rhs : ℚ

/-- Value of a linear expression under a valuation of the variables. -/
def evalLin {κ : Type} (v : κ → ℚ) (coeffs : List (ℚ × κ)) : ℚ :=
  (coeffs.map fun t => t.1 * v t.2).sum

/-- Satisfaction of one linear constraint. -/
def conHolds {κ : Type} (v : κ → ℚ) (c : LinCon κ) : Prop :=
  match c.cmp with
  | .le => evalLin v c.coeffs ≤ c.rhs
  | .ge => evalLin v c.coeffs ≥ c.rhs
  | .eq => evalLin v c.coeffs = c.rhs

/-- Gurobi variable type. -/
inductive VType
  | binary
  | integer
  | continuous
deriving DecidableEq, Repr

/-- A declared decision variable: type, lower bound, and optional upper bound
(`none` meaning plus infinity, Gurobi's default). -/
structure VarDecl where
  vtype : VType
  lb : ℚ
  ub : Option ℚ
deriving DecidableEq, Repr

/-! ### Assignment MILP builder (`Ahmed_Saad/src/model/optimization_model.py`)

`StudentAssignmentSolver.solve` builds one binary variable per
(student, project) pair, the per-student equality constraints, the project
min/max capacity constraints, and the de-duplicated incompatibility
constraints, then maximizes the total preference score. -/

/-- The variable dict `x[s.id, p.id] = m.addVar(vtype=GRB.BINARY, ...)`. -/
def asgVars (students : List Student) (projects : List Project) :
    List ((ℤ × ℤ) × VarDecl) :=
  students.foldl (fun d s =>
    projects.foldl (fun d p => dinsert (s.id, p.id) ⟨.binary, 0, some 1⟩ d) d) []

/-- Objective coefficients: `score = s.preferences.get(p.id, 0)` per pair,
maximized. -/
def asgObjCoeffs (students : List Student) (projects : List Project) :
    List (ℚ × (ℤ × ℤ)) :=
  students.flatMap fun s => projects.map fun p =>
    (((dlookup p.id s.preferences).getD 0 : ℚ), (s.id, p.id))

/-- `tuple(sorted((s1.id, s2_id)))`: symmetric normalization of a pair. -/
def sortPair (a b : ℤ) : ℤ × ℤ := if a ≤ b then (a, b) else (b, a)

/-- `next((s for s in students if s.id == s2_id), None)`. -/
def findStudent (students : List Student) (sid : ℤ) : Option Student :=
  students.find? (fun s => s.id == sid)

/-- Inner loop over `s1.incompatible_with`, carrying the `processed_pairs` set
and the emitted `(s1.id, s2.id)` constraint pairs. -/
def incompLoop (students : List Student) (s1 : Student) :
    List (ℤ × ℤ) × List (ℤ × ℤ) → List ℤ → List (ℤ × ℤ) × List (ℤ × ℤ)
  | st, [] => st
  | (processed, emitted), s2id :: rest =>
    let pair := sortPair s1.id s2id
    if pair ∈ processed then incompLoop students s1 (processed, emitted) rest
    else
      match findStudent students s2id with
      | some _ =>
        incompLoop students s1 (pair :: processed, emitted ++ [(s1.id, s2id)]) rest
      | none => incompLoop students s1 (processed, emitted) rest

/-- The `(s1.id, s2.id)` pairs for which incompatibility constraints are
emitted, de-duplicated through `processed_pairs`. -/
def incompPairs (students : List Student) : List (ℤ × ℤ) :=
  (students.foldl (fun st s1 => incompLoop students s1 st s1.incompatible_with)
    ([], [])).2

/-- The incompatibility constraints: `x[s1, p] + x[s2, p] <= 1` per emitted
pair and project. -/
def asgIncompCons (students : List Student) (projects : List Project) :
    List (LinCon (ℤ × ℤ)) :=
  (incompPairs students).flatMap fun ab => projects.map fun p =>
    ⟨[(1, (ab.1, p.id)), (1, (ab.2, p.id))], .le, 1⟩

/-- The full constraint list of the assignment model, in construction order:
per-student assignment equalities, per-project min and max capacities,
incompatibilities. -/
def asgCons (students : List Student) (projects : List Project) :
    List (LinCon (ℤ × ℤ)) :=
  (students.map fun s =>
    ⟨projects.map fun p => ((1 : ℚ), (s.id, p.id)), .eq, 1⟩) ++
  (projects.flatMap fun p =>
    [⟨students.map fun s => ((1 : ℚ), (s.id, p.id)), .ge, (p.capacity_min : ℚ)⟩,
     ⟨students.map fun s => ((1 : ℚ), (s.id, p.id)), .le, (p.capacity_max : ℚ)⟩]) ++
  asgIncompCons students projects

/-! ### Solving facade with explicit exceptions

The `solve` entry points call the engine inside `try`.  We embed the engine
call's outcome explicitly: either the engine finishes with a status and
variable values, or an exception of some kind (the engine's own `GurobiError`
or any other exception) is raised with a message.  Propagation of an uncaught
exception to the caller is the `Except.error` case of the result. -/

/-- Kind of a raised Python exception, as far as `except` clauses care. -/
inductive ExnKind
  | gurobiError
  | otherExn
deriving DecidableEq, Repr

/-- Outcome of the external `m.optimize()` call. -/
inductive EngineCall (σ : Type)
  | finished (run : σ)
  | raised (kind : ExnKind) (msg : String)

/-- Engine result for the assignment model: mapped status, objective, runtime,
and the binary variable values `x[s.id, p.id].X`. -/
inductive GrbStatus
  | optimal
  | infeasible
  | other (code : ℤ)
deriving DecidableEq, Repr

/-- One finished engine run for the assignment solver. -/
structure AsgEngineRun where
  status : GrbStatus
  objVal : ℚ
  runtime : ℚ
  xval : ℤ × ℤ → ℚ

/-- Result extraction of `StudentAssignmentSolver.solve` on `GRB.OPTIMAL`:
every `x[s.id, p.id].X > 0.5` is recorded in both result maps. -/
def asgExtract (students : List Student) (projects : List Project)
    (xval : ℤ × ℤ → ℚ) : List (ℤ × List ℤ) × List (ℤ × ℤ) :=
  students.foldl (fun acc s =>
    projects.foldl (fun acc p =>
      if xval (s.id, p.id) > 1/2 then
        (dinsert p.id (((dlookup p.id acc.1).getD []) ++ [s.id]) acc.1,
         dinsert s.id p.id acc.2)
      else acc) acc)
    (projects.foldl (fun d p => dinsert p.id [] d) [], [])

/-- `StudentAssignmentSolver.solve`: the `gp is None` guard, the engine call,
the status mapping, and the two `except` clauses, which both map any raised
exception to a returned result with status `Error: <message>`. -/
def studentSolverSolve (students : List Student) (projects : List Project)
    (gurobiAvailable : Bool) (engine : EngineCall AsgEngineRun) :
    Except (ExnKind × String) AssignmentResult :=
  if gurobiAvailable = false then
    .ok ⟨"ERROR: Gurobi not installed", 0, [], [], 0⟩
  else
    match engine with
    | .raised _ msg => .ok ⟨"Error: " ++ msg, 0, [], [], 0⟩
    | .finished r =>
      match r.status with
      | .optimal =>
        .ok ⟨"OPTIMAL", r.objVal, (asgExtract students projects r.xval).1,
          (asgExtract students projects r.xval).2, r.runtime⟩
      | .infeasible => .ok ⟨"INFEASIBLE", 0, [], [], r.runtime⟩
      | .other c => .ok ⟨"Status Code: " ++ toString c, 0, [], [], r.runtime⟩

/-! ### Min-cost multi-modal flow (`skeggo/TransportApp/model/optimization.py`)

`MinCostFlowModel.build_model` creates one non-negative integer variable per
(origin, destination, mode), minimizes total cost, and adds per-hub balance,
per-arc-per-mode capacity, and per-hub inflow throughput constraints.
`MinCostFlowModel.solve` catches only `gurobipy.GurobiError`. -/

/-- Variable key of the flow model: (origin, destination, mode). -/
abbrev FlowKey := String × String × String

/-- The data handed to `set_data`. -/
structure FlowData where
  hubs : List String
  modes : List String
  arcs : List (String × String)
  demands : List (String × ℚ)
  capacities : List (FlowKey × ℚ)
  costs : List (FlowKey × ℚ)
  hub_capacities : List (String × ℚ)

/-- The variable dict `self.flow[i, j, k] = addVar(vtype=GRB.INTEGER, lb=0)`. -/
def flowVars (d : FlowData) : List (FlowKey × VarDecl) :=
  d.arcs.foldl (fun acc ij =>
    d.modes.foldl (fun acc k => dinsert (ij.1, ij.2, k) ⟨.integer, 0, none⟩ acc)
      acc) []

/-- Objective coefficients `self.costs.get((i, j, k), 0)`, minimized. -/
def flowObjCoeffs (d : FlowData) : List (ℚ × FlowKey) :=
  d.arcs.flatMap fun ij => d.modes.map fun k =>
    ((dlookup (ij.1, ij.2, k) d.costs).getD 0, (ij.1, ij.2, k))

/-- Coefficients (each `c`) of `flow[i, j, k] for j in hubs if (i, j) in arcs
for k in modes`: flow out of hub `i`. -/
def outflowCoeffs (d : FlowData) (i : String) (c : ℚ) : List (ℚ × FlowKey) :=
  (d.hubs.filter (fun j => decide ((i, j) ∈ d.arcs))).flatMap fun j =>
    d.modes.map fun k => (c, (i, j, k))

/-- Coefficients (each `c`) of `flow[j, i, k] for j in hubs if (j, i) in arcs
for k in modes`: flow into hub `i`. -/
def inflowCoeffs (d : FlowData) (i : String) (c : ℚ) : List (ℚ × FlowKey) :=
  (d.hubs.filter (fun j => decide ((j, i) ∈ d.arcs))).flatMap fun j =>
    d.modes.map fun k => (c, (j, i, k))

/-- Constraint 1 of `build_model`: per-hub balance
`outflow - inflow == self.demands.get(i, 0)`. -/
def flowBalanceCons (d : FlowData) : List (LinCon FlowKey) :=
  d.hubs.map fun i =>
    ⟨outflowCoeffs d i 1 ++ inflowCoeffs d i (-1), .eq, (dlookup i d.demands).getD 0⟩

/-- Constraint 2 of `build_model`: per-arc-per-mode capacity
`flow[i,j,k] <= self.capacities.get((i,j,k), 0)`. -/
def flowCapCons (d : FlowData) : List (LinCon FlowKey) :=
  d.arcs.flatMap fun ij => d.modes.map fun k =>
    ⟨[(1, (ij.1, ij.2, k))], .le, (dlookup (ij.1, ij.2, k) d.capacities).getD 0⟩

/-- Constraint 3 of `build_model`: for hubs with a declared throughput
capacity, `total_inflow <= self.hub_capacities[i]`. -/
def flowHubCapCons (d : FlowData) : List (LinCon FlowKey) :=
  (d.hubs.filter (fun i => (dlookup i d.hub_capacities).isSome)).map fun i =>
    ⟨inflowCoeffs d i 1, .le, (dlookup i d.hub_capacities).getD 0⟩

/-- All constraints of `build_model`, in construction order. -/
def flowCons (d : FlowData) : List (LinCon FlowKey) :=
  flowBalanceCons d ++ flowCapCons d ++ flowHubCapCons d

/-- The result dict of `MinCostFlowModel.solve` (keys present depend on the
branch taken, hence the options). -/
structure FlowSolveDict where
  status : String
  objective : Option ℚ
  flows : Option (List (FlowKey × ℚ))
  code : Option ℤ
  message : Option String
deriving DecidableEq

/-- Extraction `for (i,j,k), var in self.flow.items(): if var.x > 0`. -/
def flowExtract (d : FlowData) (xval : FlowKey → ℚ) : List (FlowKey × ℚ) :=
  (flowVars d).foldl
    (fun acc kv => if xval kv.1 > 0 then dinsert kv.1 (xval kv.1) acc else acc) []

/-- One finished engine run for the flow solver: the numeric `model.status`
(`GRB.OPTIMAL` is 2), objective, and variable values. -/
structure FlowEngineRun where
  status : ℤ
  objVal : ℚ
  xval : FlowKey → ℚ

/-- `MinCostFlowModel.solve`: only `gurobipy.GurobiError` is caught and turned
into an `Error` dict; any other exception propagates to the caller. -/
def minCostFlowSolve (d : FlowData) (engine : EngineCall FlowEngineRun) :
    Except (ExnKind × String) FlowSolveDict :=
  match engine with
  | .finished r =>
    if r.status = 2 then
      .ok ⟨"Optimal", some r.objVal, some (flowExtract d r.xval), none, none⟩
    else
      .ok ⟨"Not Optimal", none, none, some r.status, none⟩
  | .raised .gurobiError msg => .ok ⟨"Error", none, none, none, some msg⟩
  | .raised .otherExn msg => .error (.otherExn, msg)

/-! ### Spec-side reading of the flow model (spec §4.2, Min-Cost Multi-Modal
Flow): outflow and inflow of a hub are sums over the declared arcs leaving or
entering it, over all modes. -/

/-- Total flow on arcs leaving hub `i`, over all modes. -/
def specOutflow (d : FlowData) (v : FlowKey → ℚ) (i : String) : ℚ :=
  ((d.arcs.filter (fun ij => ij.1 == i)).flatMap fun ij =>
    d.modes.map fun k => v (ij.1, ij.2, k)).sum

/-- Total flow on arcs entering hub `i`, over all modes. -/
def specInflow (d : FlowData) (v : FlowKey → ℚ) (i : String) : ℚ :=
  ((d.arcs.filter (fun ij => ij.2 == i)).flatMap fun ij =>
    d.modes.map fun k => v (ij.1, ij.2, k)).sum

/-- Spec §4.2 constraint set of the Min-Cost Multi-Modal Flow family: per-hub
balance (outflow minus inflow equals the declared net demand, 0 when
undeclared), per-arc-per-mode capacity, and declared hub throughput caps on
total inflow. -/
def FlowSpecHolds (d : FlowData) (v : FlowKey → ℚ) : Prop :=
  (∀ i ∈ d.hubs,
    specOutflow d v i - specInflow d v i = (dlookup i d.demands).getD 0) ∧
  (∀ ij ∈ d.arcs, ∀ k ∈ d.modes,
    v (ij.1, ij.2, k) ≤ (dlookup (ij.1, ij.2, k) d.capacities).getD 0) ∧
  (∀ i ∈ d.hubs, ∀ c, dlookup i d.hub_capacities = some c →
    specInflow d v i ≤ c)

/-- Property of an emitted incompatibility pair: it stems from a declared
incompatibility of an existing student toward another existing student. -/
def GoodPair (students : List Student) (ab : ℤ × ℤ) : Prop :=
  ∃ t1 ∈ students, ab.1 = t1.id ∧ ab.2 ∈ t1.incompatible_with ∧
    ∃ t2 ∈ students, t2.id = ab.2

/-- Every processed pair has a matching emitted constraint pair. -/
def PairInv (st : List (ℤ × ℤ) × List (ℤ × ℤ)) : Prop :=
  ∀ q ∈ st.1, ∃ ab ∈ st.2, sortPair ab.1 ab.2 = q

/-- Satisfaction of a linear constraint is decidable (needed to evaluate
feasibility on concrete instances). -/
instance {κ : Type} (v : κ → ℚ) (c : LinCon κ) : Decidable (conHolds v c) :=
  match c with
  | ⟨coeffs, .le, rhs⟩ => inferInstanceAs (Decidable (evalLin v coeffs ≤ rhs))
  | ⟨coeffs, .ge, rhs⟩ => inferInstanceAs (Decidable (evalLin v coeffs ≥ rhs))
  | ⟨coeffs, .eq, rhs⟩ => inferInstanceAs (Decidable (evalLin v coeffs = rhs))

/-! ### Max-flow model (`Abdelkader-Ammar/Probleme17.py`)

`MaxFlowGUI.solve_max_flow` collapses the arc list into a dict keyed by the
(from, to) endpoints, creates one continuous variable per dict key bounded by
`[0, capacity]`, maximizes the flow leaving the chosen source, and constrains
inflow = outflow at every node other than source and sink; on an optimal
solve each `Arc` object receives `arc.flow = f[arc.from_node, arc.to_node].X`. -/

/-- The `Arc` record of the max-flow GUI. -/
structure MFArc where
  from_node : String
  to_node : String
  capacity : ℚ
deriving DecidableEq, Repr

/-- Input of `solve_max_flow`: the node dict's keys (unique by the `add_node`
guard), the arc list, and the chosen source and sink. -/
structure MaxFlowProblem where
  nodes : List String
  arcs : List MFArc
  source : String
  sink : String
deriving DecidableEq, Repr

/-- Python `capacities = {(arc.from_node, arc.to_node): arc.capacity for arc in arcs}`:
later duplicates overwrite earlier ones. -/
def mfCapacities (p : MaxFlowProblem) : List ((String × String) × ℚ) :=
  p.arcs.foldl (fun d a => dinsert (a.from_node, a.to_node) a.capacity d) []

/-- `f[i, j] = m.addVar(lb=0, ub=cap)`: one continuous variable per dict key. -/
def mfVars (p : MaxFlowProblem) : List ((String × String) × VarDecl) :=
  (mfCapacities p).map fun kv => (kv.1, ⟨.continuous, 0, some kv.2⟩)

/-- Objective `sum(f[i, j] for (i, j) in capacities if i == source)`,
maximized. -/
def mfObjCoeffs (p : MaxFlowProblem) : List (ℚ × (String × String)) :=
  ((mfCapacities p).filter (fun kv => kv.1.1 == p.source)).map
    fun kv => ((1 : ℚ), kv.1)

/-- Conservation constraints `inflow == outflow` for every node other than the
source and the sink, written as inflow - outflow = 0. -/
def mfCons (p : MaxFlowProblem) : List (LinCon (String × String)) :=
  (p.nodes.filter (fun k => !(k == p.source || k == p.sink))).map fun k =>
    ⟨(((mfCapacities p).filter (fun kv => kv.1.2 == k)).map
        fun kv => ((1 : ℚ), kv.1)) ++
      (((mfCapacities p).filter (fun kv => kv.1.1 == k)).map
        fun kv => ((-1 : ℚ), kv.1)),
      .eq, 0⟩

/-- A valuation of the flow variables satisfying the model: within the
declared `[0, capacity]` bounds and all conservation constraints. -/
def mfFeasible (p : MaxFlowProblem) (v : String × String → ℚ) : Prop :=
  (∀ kv ∈ mfCapacities p, 0 ≤ v kv.1 ∧ v kv.1 ≤ kv.2) ∧
  (∀ c ∈ mfCons p, conHolds v c)

/-- Extraction `arc.flow = f[arc.from_node, arc.to_node].X`. -/
def mfExtractFlow (v : String × String → ℚ) (a : MFArc) : ℚ :=
  v (a.from_node, a.to_node)

/-- Spec-side inflow of a node: total extracted flow on arcs entering it. -/
def specMfInflow (p : MaxFlowProblem) (v : String × String → ℚ) (k : String) : ℚ :=
  ((p.arcs.filter (fun a => a.to_node == k)).map
    fun a => v (a.from_node, a.to_node)).sum

/-- Spec-side outflow of a node: total extracted flow on arcs leaving it. -/
def specMfOutflow (p : MaxFlowProblem) (v : String × String → ℚ) (k : String) : ℚ :=
  ((p.arcs.filter (fun a => a.from_node == k)).map
    fun a => v (a.from_node, a.to_node)).sum

/-! ### Vertex-cover input validation (`Amine-Jebari/main.py`)

`MainWindow.get_data_from_ui` reads the three tables (gates, wires,
incompatibilities), skipping absent or blank cells, failing on non-numeric
costs (the `ValueError` handler), duplicate gate ids, and wire/conflict
endpoints that reference a non-existing gate.  Nothing rejects a row whose
two endpoints coincide. -/

/-- The text of a cost cell as `float(text)` sees it: a numeric value or a
string that raises `ValueError`. -/
inductive CostCell
  | num (q : ℚ)
  | invalid
deriving DecidableEq, Repr

/-- One row of the gates table: each cell may be absent (`item is None`); the
text cells hold the already-stripped text (the source applies `.strip()` to
every read cell, so we embed the stripped strings directly). -/
structure GateRow where
  id_cell : Option String
  cost_cell : Option CostCell
deriving DecidableEq, Repr

/-- Reading loop 1 of `get_data_from_ui`: collect `(gid, cost)` records,
skipping absent cells and blank ids; a non-numeric cost raises `ValueError`,
aborting the whole read (`none`). -/
def readGateRows : List GateRow → Option (List (String × ℚ))
  | [] => some []
  | row :: t =>
    match row.id_cell, row.cost_cell with
    | none, _ => readGateRows t
    | some _, none => readGateRows t
    | some gid, some c =>
      if gid = "" then readGateRows t
      else
        match c with
        | .invalid => none
        | .num q => (readGateRows t).map (fun rest => (gid, q) :: rest)

/-- Reading loops 2 and 3 of `get_data_from_ui`: collect `(u, v)` endpoint
pairs, skipping absent or blank cells, and failing when an endpoint is not a
known gate id.  The two endpoints are never compared with each other. -/
def readPairRows (gateSet : List String) :
    List (Option String × Option String) → Option (List (String × String))
  | [] => some []
  | (uc, vc) :: t =>
    match uc, vc with
    | none, _ => readPairRows gateSet t
    | some _, none => readPairRows gateSet t
    | some u0, some v0 =>
      if u0 = "" ∨ v0 = "" then readPairRows gateSet t
      else if u0 ∉ gateSet ∨ v0 ∉ gateSet then none
      else (readPairRows gateSet t).map (fun rest => (u0, v0) :: rest)

/-- `MainWindow.get_data_from_ui`: returns `(nodes, edges, incompatibilities)`
or `none` for any reported violation. -/
def getDataFromUi (gates : List GateRow)
    (wires conflicts : List (Option String × Option String)) :
    Option (List (String × ℚ) × List (String × String) × List (String × String)) :=
  match readGateRows gates with
  | none => none
  | some nodes =>
    if (nodes.map Prod.fst).Nodup then
      match readPairRows (nodes.map Prod.fst) wires with
      | none => none
      | some edges =>
        match readPairRows (nodes.map Prod.fst) conflicts with
        | none => none
        | some incomp => some (nodes, edges, incomp)
    else none

/-! ### Blending data model (`Ahmed-BenRejeb/src/models/data_model.py`)

The blending problem persists to JSON via `save_to_json`/`load_from_json`;
numbers are embedded as rationals (Python round-trips floats exactly through
`json`), optional values as `Option`, and dicts as ordered association
lists. -/

/-- A JSON value. -/
inductive Json
  | null
  | bool (b : Bool)
  | num (q : ℚ)
  | str (s : String)
  | arr (items : List Json)
  | obj (fields : List (String × Json))

/-- The `Element` dataclass. -/
structure Element where
  symbol : String
  name : String
  min_percent : ℚ
  max_percent : ℚ
  target_percent : Option ℚ
deriving DecidableEq, Repr

/-- The `RawMaterial` dataclass. -/
structure RawMaterial where
  name : String
  cost_per_kg : ℚ
  availability : ℚ
  composition : List (String × ℚ)
  density : ℚ
  purity : ℚ
deriving DecidableEq, Repr

/-- The `AlloySpecification` dataclass. -/
structure AlloySpecification where
  name : String
  target_weight : ℚ
  elements : List Element
  max_impurities : ℚ
  min_hardness : Option ℚ
  max_hardness : Option ℚ
  melting_point_min : Option ℚ
  melting_point_max : Option ℚ
deriving DecidableEq, Repr

/-- The `BlendingProblem` dataclass (`additional_constraints` is a free-form
dict; the application persists it through JSON, so its values are JSON). -/
structure BlendingProblem where
  name : String
  raw_materials : List RawMaterial
  alloy_spec : AlloySpecification
  additional_constraints : List (String × Json)

/-- A Python `None`-or-float serialized to JSON. -/
def optNumJson : Option ℚ → Json
  | none => .null
  | some q => .num q

/-- Serialization of the composition dict. -/
def compositionToJson (comp : List (String × ℚ)) : Json :=
  .obj (comp.map fun kv => (kv.1, Json.num kv.2))

/-- The raw-material dict written by `save_to_json`. -/
def rmToJson (rm : RawMaterial) : Json :=
  .obj [("name", .str rm.name), ("cost_per_kg", .num rm.cost_per_kg),
    ("availability", .num rm.availability),
    ("composition", compositionToJson rm.composition),
    ("density", .num rm.density), ("purity", .num rm.purity)]

/-- The element dict written by `save_to_json`. -/
def elementToJson (e : Element) : Json :=
  .obj [("symbol", .str e.symbol), ("name", .str e.name),
    ("min_percent", .num e.min_percent), ("max_percent", .num e.max_percent),
    ("target_percent", optNumJson e.target_percent)]

/-- The alloy-spec dict written by `save_to_json`. -/
def alloySpecToJson (a : AlloySpecification) : Json :=
  .obj [("name", .str a.name), ("target_weight", .num a.target_weight),
    ("elements", .arr (a.elements.map elementToJson)),
    ("max_impurities", .num a.max_impurities),
    ("min_hardness", optNumJson a.min_hardness),
    ("max_hardness", optNumJson a.max_hardness),
    ("melting_point_min", optNumJson a.melting_point_min),
    ("melting_point_max", optNumJson a.melting_point_max)]

/-- The top-level dict written by `save_to_json`. -/
def problemToJson (p : BlendingProblem) : Json :=
  .obj [("name", .str p.name),
    ("raw_materials", .arr (p.raw_materials.map rmToJson)),
    ("alloy_spec", alloySpecToJson p.alloy_spec),
    ("additional_constraints", .obj p.additional_constraints)]

/-- Dict access `data[key]` (`none` both for a missing key — Python's
`KeyError` — and for indexing a non-dict). -/
def jfield (j : Json) (key : String) : Option Json :=
  match j with
  | .obj fields => dlookup key fields
  | _ => none

/-- Reading a float field. -/
def jnum : Option Json → Option ℚ
  | some (.num q) => some q
  | _ => none

/-- Reading a string field. -/
def jstr : Option Json → Option String
  | some (.str s) => some s
  | _ => none

/-- Reading a list field. -/
def jarr : Option Json → Option (List Json)
  | some (.arr l) => some l
  | _ => none

/-- `data.get(key)`: a missing key or a JSON `null` value both read back as
Python `None`. -/
def joptNum : Option Json → Option (Option ℚ)
  | none => some none
  | some .null => some none
  | some (.num q) => some (some q)
  | some _ => none

/-- `data.get(key, default)` with a numeric default. -/
def jnumD (o : Option Json) (dflt : ℚ) : Option ℚ :=
  match o with
  | none => some dflt
  | some (.num q) => some q
  | some _ => none

/-- Reading the composition dict back. -/
def parseCompFields : List (String × Json) → Option (List (String × ℚ))
  | [] => some []
  | (k, v) :: t =>
    match v with
    | .num q => (parseCompFields t).map (fun rest => (k, q) :: rest)
    | _ => none

/-- `rm_data['composition']` as a dict of floats. -/
def parseComposition : Json → Option (List (String × ℚ))
  | .obj fields => parseCompFields fields
  | _ => none

/-- Rebuilding one `RawMaterial` in `load_from_json`. -/
def parseRawMaterial (j : Json) : Option RawMaterial := do
  let name ← jstr (jfield j "name")
  let cost ← jnum (jfield j "cost_per_kg")
  let avail ← jnum (jfield j "availability")
  let compJson ← jfield j "composition"
  let comp ← parseComposition compJson
  let density ← jnumD (jfield j "density") 7.8
  let purity ← jnumD (jfield j "purity") 100
  some ⟨name, cost, avail, comp, density, purity⟩

/-- Rebuilding the raw-material list. -/
def parseRawMaterials : List Json → Option (List RawMaterial)
  | [] => some []
  | j :: t => do
    let rm ← parseRawMaterial j
    let rest ← parseRawMaterials t
    some (rm :: rest)

/-- Rebuilding one `Element` in `load_from_json`. -/
def parseElement (j : Json) : Option Element := do
  let symbol ← jstr (jfield j "symbol")
  let name ← jstr (jfield j "name")
  let minp ← jnum (jfield j "min_percent")
  let maxp ← jnum (jfield j "max_percent")
  let target ← joptNum (jfield j "target_percent")
  some ⟨symbol, name, minp, maxp, target⟩

/-- Rebuilding the element list. -/
def parseElements : List Json → Option (List Element)
  | [] => some []
  | j :: t => do
    let e ← parseElement j
    let rest ← parseElements t
    some (e :: rest)

/-- Rebuilding the `AlloySpecification` in `load_from_json`. -/
def parseAlloySpec (j : Json) : Option AlloySpecification := do
  let name ← jstr (jfield j "name")
  let tw ← jnum (jfield j "target_weight")
  let elemsJson ← jarr (jfield j "elements")
  let elems ← parseElements elemsJson
  let maxImp ← jnumD (jfield j "max_impurities") 2
  let minH ← joptNum (jfield j "min_hardness")
  let maxH ← joptNum (jfield j "max_hardness")
  let mpMin ← joptNum (jfield j "melting_point_min")
  let mpMax ← joptNum (jfield j "melting_point_max")
  some ⟨name, tw, elems, maxImp, minH, maxH, mpMin, mpMax⟩

/-- `BlendingProblem.load_from_json` applied to an in-memory JSON value. -/
def loadFromJson (j : Json) : Option BlendingProblem := do
  let rmsJson ← jarr (jfield j "raw_materials")
  let rms ← parseRawMaterials rmsJson
  let specJson ← jfield j "alloy_spec"
  let spec ← parseAlloySpec specJson
  let name ← jstr (jfield j "name")
  let addc ← (match jfield j "additional_constraints" with
    | none => some []
    | some (.obj fields) => some fields
    | some _ => none)
  some ⟨name, rms, spec, addc⟩

/-! ### Blending optimizer (`Ahmed-BenRejeb/src/models/optimization_model.py`)

`BlendingOptimizer.build_model` creates one continuous variable per material
bounded by `[0, availability]`, minimizes total cost, constrains the total
weight to the target, adds per-element composition constraints (minimum only
when `min_percent > 0`, maximum only when `max_percent < 100`, exact target
when declared), and bounds the impurities (elements absent from the
specification) when `max_impurities < 100`.  Gurobi constraints compare two
linear expressions; they are embedded in the canonical moved-to-one-side form
with right-hand side 0. -/

/-- `material.get_element_content(symbol)`. -/
def getElementContent (m : RawMaterial) (sym : String) : ℚ :=
  (dlookup sym m.composition).getD 0

/-- The symbols declared in the alloy specification. -/
def specifiedSymbols (prob : BlendingProblem) : List String :=
  prob.alloy_spec.elements.map Element.symbol

/-- The variable dict `self.variables[material.name] =
addVar(lb=0, ub=material.availability, vtype=GRB.CONTINUOUS)`. -/
def blendVars (prob : BlendingProblem) : List (String × VarDecl) :=
  prob.raw_materials.foldl
    (fun d m => dinsert m.name ⟨.continuous, 0, some m.availability⟩ d) []

/-- Objective coefficients `cost_per_kg * x`, minimized. -/
def blendObjCoeffs (prob : BlendingProblem) : List (ℚ × String) :=
  prob.raw_materials.map fun m => (m.cost_per_kg, m.name)

/-- The total-weight equality `total_weight == target_weight`. -/
def blendWeightCon (prob : BlendingProblem) : LinCon String :=
  ⟨prob.raw_materials.map fun m => ((1 : ℚ), m.name), .eq,
    prob.alloy_spec.target_weight⟩

/-- `_add_element_constraints` for one element (conditional minimum, maximum
and exact-target constraints, each written as content minus bound times total
weight compared with 0). -/
def elementConsFor (prob : BlendingProblem) (e : Element) : List (LinCon String) :=
  (if e.min_percent > 0 then
    [⟨prob.raw_materials.map fun m =>
      (getElementContent m e.symbol / 100 - e.min_percent / 100, m.name), .ge, 0⟩]
  else []) ++
  (if e.max_percent < 100 then
    [⟨prob.raw_materials.map fun m =>
      (getElementContent m e.symbol / 100 - e.max_percent / 100, m.name), .le, 0⟩]
  else []) ++
  (match e.target_percent with
   | some t =>
    [⟨prob.raw_materials.map fun m =>
      (getElementContent m e.symbol / 100 - t / 100, m.name), .eq, 0⟩]
   | none => [])

/-- `_add_additional_constraints`: the impurity constraint, emitted only when
`max_impurities < 100`: the summed content of composition entries whose
symbol is not specified stays below the impurity fraction of the total
weight. -/
def impurityCons (prob : BlendingProblem) : List (LinCon String) :=
  if prob.alloy_spec.max_impurities < 100 then
    [⟨(prob.raw_materials.flatMap fun m =>
        (m.composition.filter (fun kv => decide (kv.1 ∉ specifiedSymbols prob))).map
          fun kv => (kv.2 / 100, m.name)) ++
      (prob.raw_materials.map fun m =>
        (-(prob.alloy_spec.max_impurities / 100), m.name)), .le, 0⟩]
  else []

/-- All constraints of `build_model`, in construction order. -/
def blendCons (prob : BlendingProblem) : List (LinCon String) :=
  [blendWeightCon prob] ++
  (prob.alloy_spec.elements.flatMap fun e => elementConsFor prob e) ++
  impurityCons prob

/-- A valuation within the declared `[0, availability]` bounds satisfying all
constraints of the built model. -/
def blendFeasible (prob : BlendingProblem) (v : String → ℚ) : Prop :=
  (∀ m ∈ prob.raw_materials, 0 ≤ v m.name ∧ v m.name ≤ m.availability) ∧
  (∀ c ∈ blendCons prob, conHolds v c)

/-- Spec-side total material weight. -/
def blendTotal (prob : BlendingProblem) (v : String → ℚ) : ℚ :=
  (prob.raw_materials.map fun m => v m.name).sum

/-- Spec-side weighted content of one element. -/
def elementContent (prob : BlendingProblem) (sym : String) (v : String → ℚ) : ℚ :=
  (prob.raw_materials.map fun m => getElementContent m sym / 100 * v m.name).sum

/-- Spec-side weight contributed by elements absent from the specification. -/
def impurityContent (prob : BlendingProblem) (v : String → ℚ) : ℚ :=
  (prob.raw_materials.flatMap fun m =>
    (m.composition.filter (fun kv => decide (kv.1 ∉ specifiedSymbols prob))).map
      fun kv => kv.2 / 100 * v m.name).sum

theorem dkeys_cons {α β : Type} (a : α) (b : β) (t : List (α × β)) :
    dkeys ((a, b) :: t) = a :: dkeys t := rfl

theorem dkeys_dinsert_mem {α β : Type} [DecidableEq α] (k : α) (v : β)
    (d : List (α × β)) (h : k ∈ dkeys d) : dkeys (dinsert k v d) = dkeys d := by
  induction d with
  | nil => simp [dkeys] at h
  | cons p t ih =>
    obtain ⟨a, b⟩ := p
    rw [dkeys_cons] at h
    by_cases hak : a = k
    · simp [dinsert, hak, dkeys_cons]
    · have hkt : k ∈ dkeys t := by
        rcases List.mem_cons.mp h with h1 | h2
        · exact absurd h1.symm hak
        · exact h2
      simp [dinsert, hak, dkeys_cons, ih hkt]

theorem dkeys_dinsert_not_mem {α β : Type} [DecidableEq α] (k : α) (v : β)
    (d : List (α × β)) (h : k ∉ dkeys d) : dkeys (dinsert k v d) = dkeys d ++ [k] := by
  induction d with
  | nil => simp [dinsert, dkeys]
  | cons p t ih =>
    obtain ⟨a, b⟩ := p
    rw [dkeys_cons] at h
    by_cases hak : a = k
    · exact absurd (hak ▸ List.mem_cons_self a (dkeys t)) h
    · have hkt : k ∉ dkeys t := fun hm => h (List.mem_cons_of_mem a hm)
      simp [dinsert, hak, dkeys_cons, ih hkt]

theorem dlookup_isSome_iff {α β : Type} [DecidableEq α] (k : α) (d : List (α × β)) :
    (dlookup k d).isSome = true ↔ k ∈ dkeys d := by
  induction d with
  | nil => simp [dlookup, dkeys]
  | cons p t ih =>
    obtain ⟨a, b⟩ := p
    rw [dkeys_cons]
    by_cases hak : a = k
    · simp [dlookup, hak]
    · rw [List.mem_cons]
      simp only [dlookup, if_neg hak]
      constructor
      · intro hh
        exact Or.inr (ih.mp hh)
      · intro hh
        rcases hh with h1 | h2
        · exact absurd h1.symm hak
        · exact ih.mpr h2

theorem dlookup_dinsert_self {α β : Type} [DecidableEq α] (k : α) (v : β)
    (d : List (α × β)) : dlookup k (dinsert k v d) = some v := by
  induction d with
  | nil => simp [dinsert, dlookup]
  | cons p t ih =>
    obtain ⟨a, b⟩ := p
    by_cases hak : a = k
    · simp [dinsert, hak, dlookup]
    · simp [dinsert, hak, dlookup, ih]

theorem dlookup_dinsert_ne {α β : Type} [DecidableEq α] {k j : α} (v : β)
    (d : List (α × β)) (h : j ≠ k) : dlookup j (dinsert k v d) = dlookup j d := by
  induction d with
  | nil => simp [dinsert, dlookup, if_neg (Ne.symm h)]
  | cons p t ih =>
    obtain ⟨a, b⟩ := p
    by_cases hak : a = k
    · subst hak
      simp [dinsert, dlookup, if_neg (Ne.symm h)]
    · simp [dinsert, hak, dlookup, ih]

theorem dkeys_nodup_dinsert {α β : Type} [DecidableEq α] (k : α) (v : β)
    (d : List (α × β)) (h : (dkeys d).Nodup) : (dkeys (dinsert k v d)).Nodup := by
  by_cases hk : k ∈ dkeys d
  · rwa [dkeys_dinsert_mem k v d hk]
  · rw [dkeys_dinsert_not_mem k v d hk]
    simpa [List.nodup_append] using ⟨h, fun hka => hk hka⟩

theorem mem_insertByScoreDesc (a x : ℤ × ℤ) (l : List (ℤ × ℤ)) :
    x ∈ insertByScoreDesc a l ↔ x = a ∨ x ∈ l := by
  induction l with
  | nil => simp [insertByScoreDesc]
  | cons b t ih =>
    by_cases hb : a.2 ≥ b.2
    · simp only [insertByScoreDesc, if_pos hb]
      exact List.mem_cons
    · simp only [insertByScoreDesc, if_neg hb, List.mem_cons, ih]
      tauto

theorem scoreSortedDesc_insert (a : ℤ × ℤ) (l : List (ℤ × ℤ))
    (h : ScoreSortedDesc l) : ScoreSortedDesc (insertByScoreDesc a l) := by
  induction l with
  | nil => simp [insertByScoreDesc, ScoreSortedDesc]
  | cons b t ih =>
    rcases List.pairwise_cons.mp h with ⟨hb, ht⟩
    by_cases hab : a.2 ≥ b.2
    · simp only [insertByScoreDesc, if_pos hab]
      refine List.pairwise_cons.mpr ⟨?_, h⟩
      intro y hy
      rcases List.mem_cons.mp hy with rfl | hy
      · exact hab
      · exact le_trans (hb y hy) hab
    · simp only [insertByScoreDesc, if_neg hab]
      refine List.pairwise_cons.mpr ⟨?_, ih ht⟩
      intro y hy
      rcases (mem_insertByScoreDesc a y t).mp hy with rfl | hy
      · exact le_of_lt (lt_of_not_ge hab)
      · exact hb y hy

theorem scoreSortedDesc_sortPrefs (l : List (ℤ × ℤ)) :
    ScoreSortedDesc (sortPrefsDesc l) := by
  induction l with
  | nil => simp [sortPrefsDesc, ScoreSortedDesc]
  | cons e t ih => exact scoreSortedDesc_insert e (sortPrefsDesc t) ih

theorem find?_mem_of_eq_some {p : ℤ × ℤ → Bool} {l : List (ℤ × ℤ)} {b : ℤ × ℤ}
    (h : l.find? p = some b) : b ∈ l := List.mem_of_find?_eq_some h

/-- How `find?` interacts with a stable descending insertion: on a sorted
tail, searching after inserting `a` keeps the better of `a` and the tail's
result, preferring `a` on ties. -/
theorem find?_insertByScoreDesc (p : ℤ × ℤ → Bool) (a : ℤ × ℤ)
    (l : List (ℤ × ℤ)) (hl : ScoreSortedDesc l) :
    (insertByScoreDesc a l).find? p =
      match l.find? p with
      | none => if p a then some a else none
      | some b => if p a then (if b.2 > a.2 then some b else some a) else some b := by
  induction l with
  | nil =>
    by_cases hpa : p a <;> simp [insertByScoreDesc, List.find?, hpa]
  | cons b t ih =>
    rcases List.pairwise_cons.mp hl with ⟨hb, ht⟩
    by_cases hab : a.2 ≥ b.2
    · simp only [insertByScoreDesc, if_pos hab]
      by_cases hpa : p a
      · rw [List.find?_cons_of_pos _ hpa]
        rcases hfind : (b :: t).find? p with _ | c
        · simp [hpa]
        · have hc : c ∈ b :: t := find?_mem_of_eq_some hfind
          have hcb : c.2 ≤ b.2 := by
            rcases List.mem_cons.mp hc with rfl | hct
            · exact le_refl _
            · exact hb c hct
          have hca : ¬ c.2 > a.2 := not_lt.mpr (le_trans hcb hab)
          simp [hpa, hca]
      · rw [List.find?_cons_of_neg _ hpa]
        rcases hfind : (b :: t).find? p with _ | c <;> simp [hfind, hpa]
    · simp only [insertByScoreDesc, if_neg hab]
      by_cases hpb : p b
      · have hfind : (b :: t).find? p = some b := List.find?_cons_of_pos _ hpb
        have hba : b.2 > a.2 := lt_of_not_ge hab
        rw [List.find?_cons_of_pos _ hpb, hfind]
        by_cases hpa : p a <;> simp [hba, hpa]
      · have h1 : List.find? p (b :: insertByScoreDesc a t) =
            List.find? p (insertByScoreDesc a t) := List.find?_cons_of_neg _ hpb
        have h2 : List.find? p (b :: t) = List.find? p t :=
          List.find?_cons_of_neg _ hpb
        rw [h1, h2, ih ht]

/-- Taking the first fitting entry of the stable descending sort is the same
as taking the highest-scored fitting entry (ties to the earliest). -/
theorem find?_sortPrefsDesc (p : ℤ × ℤ → Bool) (l : List (ℤ × ℤ)) :
    (sortPrefsDesc l).find? p = highestScoreSatisfying p l := by
  induction l with
  | nil => simp [sortPrefsDesc, highestScoreSatisfying]
  | cons e t ih =>
    rw [sortPrefsDesc,
      find?_insertByScoreDesc p e (sortPrefsDesc t) (scoreSortedDesc_sortPrefs t), ih]
    by_cases hpe : p e
    · rcases hh : highestScoreSatisfying p t with _ | b <;>
        simp [highestScoreSatisfying, hpe, hh]
    · rcases hh : highestScoreSatisfying p t with _ | b <;>
        simp [highestScoreSatisfying, hpe, hh]

theorem mockStep_eq_refStep (projects : List Project) (st : MockState)
    (s : Student) : mockStep projects st s = refStep projects st s := by
  unfold mockStep refStep pickPreferred
  rw [find?_sortPrefsDesc]

theorem mockFinal_eq_refSolve (students : List Student)
    (projects : List Project) : mockFinal students projects = refSolve students projects := by
  unfold mockFinal refSolve
  have : mockStep projects = refStep projects := by
    funext st s
    exact mockStep_eq_refStep projects st s
  rw [this]

/-! ### Invariants of the greedy fallback loop -/

theorem insertById_perm (s : Student) (l : List Student) :
    List.Perm (insertById s l) (s :: l) := by
  induction l with
  | nil => exact List.Perm.refl _
  | cons t ts ih =>
    by_cases h : s.id ≤ t.id
    · simp [insertById, h]
    · simp only [insertById, if_neg h]
      exact (ih.cons t).trans (List.Perm.swap s t ts)

theorem sortStudentsById_perm (l : List Student) :
    List.Perm (sortStudentsById l) l := by
  induction l with
  | nil => exact List.Perm.refl _
  | cons s ts ih => exact (insertById_perm s (sortStudentsById ts)).trans (ih.cons s)

theorem length_dinsert_mem {α β : Type} [DecidableEq α] (k : α) (v : β)
    (d : List (α × β)) (h : k ∈ dkeys d) : (dinsert k v d).length = d.length := by
  have h1 : (dkeys (dinsert k v d)).length = (dkeys d).length := by
    rw [dkeys_dinsert_mem k v d h]
  simpa [dkeys] using h1

theorem length_dinsert_not_mem {α β : Type} [DecidableEq α] (k : α) (v : β)
    (d : List (α × β)) (h : k ∉ dkeys d) : (dinsert k v d).length = d.length + 1 := by
  have h1 : (dkeys (dinsert k v d)).length = (dkeys d).length + 1 := by
    rw [dkeys_dinsert_not_mem k v d h]
    simp
  simpa [dkeys] using h1

theorem mem_dkeys_dinsert {α β : Type} [DecidableEq α] {j : α} (k : α) (v : β)
    (d : List (α × β)) (h : j ∈ dkeys d) : j ∈ dkeys (dinsert k v d) := by
  by_cases hk : k ∈ dkeys d
  · rwa [dkeys_dinsert_mem k v d hk]
  · rw [dkeys_dinsert_not_mem k v d hk]
    exact List.mem_append_left _ h

theorem mem_dkeys_dinsert_iff {α β : Type} [DecidableEq α] (j k : α) (v : β)
    (d : List (α × β)) : j ∈ dkeys (dinsert k v d) ↔ j = k ∨ j ∈ dkeys d := by
  by_cases hk : k ∈ dkeys d
  · rw [dkeys_dinsert_mem k v d hk]
    constructor
    · exact Or.inr
    · rintro (rfl | h)
      · exact hk
      · exact h
  · rw [dkeys_dinsert_not_mem k v d hk]
    simp [List.mem_append, or_comm]

/-- `mockStep` either leaves the state untouched or records one assignment of
the processed student. -/
theorem mockStep_cases (projects : List Project) (st : MockState) (s : Student) :
    mockStep projects st s = st ∨
      ∃ pid score, mockStep projects st s = recordAssignment st s.id pid score := by
  cases hp : pickPreferred projects st.assignments s.preferences with
  | some e => exact Or.inr ⟨e.1, (e.2 : ℚ), by simp [mockStep, hp]⟩
  | none =>
    cases hf : pickFallback projects st.assignments with
    | some p => exact Or.inr ⟨p.id, 0, by simp [mockStep, hp, hf]⟩
    | none => exact Or.inl (by simp [mockStep, hp, hf])

theorem mockFold_keys_mono (projects : List Project) :
    ∀ (S : List Student) (st : MockState) (j : ℤ),
      j ∈ dkeys st.student_assignments →
      j ∈ dkeys ((S.foldl (mockStep projects) st).student_assignments) := by
  intro S
  induction S with
  | nil => intro st j h; exact h
  | cons s T ih =>
    intro st j h
    simp only [List.foldl_cons]
    apply ih
    rcases mockStep_cases projects st s with heq | ⟨pid, score, heq⟩
    · rwa [heq]
    · rw [heq]
      exact mem_dkeys_dinsert _ _ _ h

/-- Main bookkeeping invariant of the per-student loop: with pairwise distinct
student ids, the student-assignment dict has one entry per processed student
exactly when every processed student got a key, its keys stay unique and come
from processed students, and its size never exceeds the number processed. -/
theorem mockFold_sa_spec (projects : List Project) :
    ∀ (S : List Student) (st : MockState),
      (dkeys st.student_assignments).Nodup →
      (S.map Student.id).Nodup →
      (∀ k ∈ dkeys st.student_assignments, k ∉ S.map Student.id) →
      (((S.foldl (mockStep projects) st).student_assignments.length =
          st.student_assignments.length + S.length ↔
        ∀ s ∈ S, s.id ∈ dkeys (S.foldl (mockStep projects) st).student_assignments) ∧
      (dkeys ((S.foldl (mockStep projects) st).student_assignments)).Nodup ∧
      (∀ k ∈ dkeys ((S.foldl (mockStep projects) st).student_assignments),
        k ∈ dkeys st.student_assignments ∨ k ∈ S.map Student.id) ∧
      (S.foldl (mockStep projects) st).student_assignments.length ≤
        st.student_assignments.length + S.length) := by
  intro S
  induction S with
  | nil =>
    intro st hnd _ _
    refine ⟨by simp, hnd, fun k hk => Or.inl hk, by simp⟩
  | cons s T ih =>
    intro st hnd hndS hfresh
    have hsid_st : s.id ∉ dkeys st.student_assignments := by
      intro hmem
      exact hfresh s.id hmem (by simp)
    have hsid_T : s.id ∉ T.map Student.id := (List.nodup_cons.mp hndS).1
    have hndT : (T.map Student.id).Nodup := (List.nodup_cons.mp hndS).2
    simp only [List.foldl_cons]
    rcases mockStep_cases projects st s with heq | ⟨pid, score, heq⟩
    · -- the student was not assigned: the state is unchanged
      rw [heq]
      obtain ⟨hiff, hnd2, hsub, hle⟩ := ih st hnd hndT
        (fun k hk => fun hmem => hfresh k hk (List.mem_cons_of_mem _ hmem))
      have hsid_fin : s.id ∉ dkeys ((T.foldl (mockStep projects) st).student_assignments) := by
        intro hmem
        rcases hsub s.id hmem with h1 | h2
        · exact hsid_st h1
        · exact hsid_T h2
      refine ⟨?_, hnd2, ?_, ?_⟩
      · constructor
        · intro hlen
          simp only [List.length_cons] at hlen
          exfalso
          omega
        · intro hcov
          exact absurd (hcov s (by simp)) hsid_fin
      · intro k hk
        rcases hsub k hk with h1 | h2
        · exact Or.inl h1
        · exact Or.inr (by simp [h2])
      · simp only [List.length_cons]
        omega
    · -- the student was assigned to some project `pid`
      rw [heq]
      have hsa : (recordAssignment st s.id pid score).student_assignments =
          dinsert s.id pid st.student_assignments := rfl
      have hkeys : dkeys ((recordAssignment st s.id pid score).student_assignments) =
          dkeys st.student_assignments ++ [s.id] := by
        rw [hsa]
        exact dkeys_dinsert_not_mem s.id pid _ hsid_st
      have hnd2 : (dkeys ((recordAssignment st s.id pid score).student_assignments)).Nodup := by
        rw [hsa]
        exact dkeys_nodup_dinsert s.id pid _ hnd
      have hlen2 : (recordAssignment st s.id pid score).student_assignments.length =
          st.student_assignments.length + 1 := by
        rw [hsa]
        exact length_dinsert_not_mem s.id pid _ hsid_st
      have hfresh2 : ∀ k ∈ dkeys ((recordAssignment st s.id pid score).student_assignments),
          k ∉ T.map Student.id := by
        intro k hk
        rw [hkeys] at hk
        rcases List.mem_append.mp hk with h1 | h2
        · exact fun hmem => hfresh k h1 (List.mem_cons_of_mem _ hmem)
        · rw [List.mem_singleton.mp h2]
          exact hsid_T
      obtain ⟨hiff, hnd3, hsub, hle⟩ :=
        ih (recordAssignment st s.id pid score) hnd2 hndT hfresh2
      have hsid_fin :
          s.id ∈ dkeys ((T.foldl (mockStep projects)
            (recordAssignment st s.id pid score)).student_assignments) := by
        apply mockFold_keys_mono
        rw [hkeys]
        exact List.mem_append_right _ (by simp)
      refine ⟨?_, hnd3, ?_, ?_⟩
      · rw [hlen2] at hiff hle
        constructor
        · intro hlen
          simp only [List.length_cons] at hlen
          intro x hx
          rcases List.mem_cons.mp hx with rfl | hxT
          · exact hsid_fin
          · exact (hiff.mp (by omega)) x hxT
        · intro hcov
          have : ∀ x ∈ T, x.id ∈
              dkeys ((T.foldl (mockStep projects)
                (recordAssignment st s.id pid score)).student_assignments) :=
            fun x hx => hcov x (List.mem_cons_of_mem _ hx)
          have hl := hiff.mpr this
          simp only [List.length_cons]
          omega
      · intro k hk
        rcases hsub k hk with h1 | h2
        · rw [hkeys] at h1
          rcases List.mem_append.mp h1 with h3 | h4
          · exact Or.inl h3
          · exact Or.inr (by simp [List.mem_singleton.mp h4])
        · exact Or.inr (by simp [h2])
      · rw [hlen2] at hle
        simp only [List.length_cons]
        omega

/-! ### Max-capacity invariant of the greedy fallback -/

theorem project_eq_of_find? {projects : List Project}
    (hnd : (projects.map Project.id).Nodup) {pid : ℤ} {proj : Project}
    (h : findProject projects pid = some proj) :
    ∀ p ∈ projects, p.id = pid → p = proj := by
  intro p hp hpid
  have hmem : proj ∈ projects := List.mem_of_find?_eq_some h
  have hpr : proj.id = pid := by
    have := List.find?_some h
    simpa using this
  exact List.inj_on_of_nodup_map hnd hp hmem (by rw [hpid, hpr])

theorem assignedCount_dinsert_self (assignments : List (ℤ × List ℤ)) (pid sid : ℤ) :
    assignedCount
      (dinsert pid (((dlookup pid assignments).getD []) ++ [sid]) assignments) pid =
      assignedCount assignments pid + 1 := by
  unfold assignedCount
  rw [dlookup_dinsert_self]
  simp

theorem assignedCount_dinsert_ne (assignments : List (ℤ × List ℤ))
    {pid j : ℤ} (v : List ℤ) (h : j ≠ pid) :
    assignedCount (dinsert pid v assignments) j = assignedCount assignments j := by
  unfold assignedCount
  rw [dlookup_dinsert_ne v assignments h]

/-- A single greedy step never pushes a project above its `capacity_max`:
the appended-to project had strictly spare capacity. -/
theorem mockStep_capacity (projects : List Project)
    (hnd : (projects.map Project.id).Nodup) (st : MockState) (s : Student)
    (hinv : ∀ p ∈ projects, assignedCount st.assignments p.id ≤ p.capacity_max) :
    ∀ p ∈ projects, assignedCount (mockStep projects st s).assignments p.id ≤
      p.capacity_max := by
  intro p hp
  cases hpick : pickPreferred projects st.assignments s.preferences with
  | some e =>
    have hpick2 : (sortPrefsDesc s.preferences).find?
        (fun x => prefHasRoom projects st.assignments x.1) = some e := hpick
    have hpred : prefHasRoom projects st.assignments e.1 = true := by
      simpa using List.find?_some hpick2
    simp only [mockStep, hpick, recordAssignment]
    unfold prefHasRoom at hpred
    cases hfind : findProject projects e.1 with
    | none =>
      rw [hfind] at hpred
      simp at hpred
    | some proj =>
      rw [hfind] at hpred
      have hroom : assignedCount st.assignments e.1 < proj.capacity_max := by
        simpa using hpred
      by_cases hpe : p.id = e.1
      · have hpp : p = proj := project_eq_of_find? hnd hfind p hp hpe
        rw [hpe, assignedCount_dinsert_self]
        rw [hpp]
        omega
      · rw [assignedCount_dinsert_ne _ _ hpe]
        exact hinv p hp
  | none =>
    cases hfall : pickFallback projects st.assignments with
    | some p0 =>
      have hfall2 : projects.find?
          (fun p => assignedCount st.assignments p.id < p.capacity_max) = some p0 :=
        hfall
      have hroom : assignedCount st.assignments p0.id < p0.capacity_max := by
        simpa using List.find?_some hfall2
      have hmem0 : p0 ∈ projects := List.mem_of_find?_eq_some hfall
      simp only [mockStep, hpick, hfall, recordAssignment]
      by_cases hpe : p.id = p0.id
      · have hpp : p = p0 := List.inj_on_of_nodup_map hnd hp hmem0 hpe
        rw [hpe, assignedCount_dinsert_self]
        rw [hpp]
        omega
      · rw [assignedCount_dinsert_ne _ _ hpe]
        exact hinv p hp
    | none =>
      simp only [mockStep, hpick, hfall]
      exact hinv p hp

/-- The max-capacity bound is an invariant of the whole greedy loop. -/
theorem mockFold_capacity (projects : List Project)
    (hnd : (projects.map Project.id).Nodup) :
    ∀ (S : List Student) (st : MockState),
      (∀ p ∈ projects, assignedCount st.assignments p.id ≤ p.capacity_max) →
      ∀ p ∈ projects,
        assignedCount ((S.foldl (mockStep projects) st)).assignments p.id ≤
          p.capacity_max := by
  intro S
  induction S with
  | nil => intro st hinv; exact hinv
  | cons s T ih =>
    intro st hinv
    simp only [List.foldl_cons]
    exact ih (mockStep projects st s) (mockStep_capacity projects hnd st s hinv)

theorem initAssignments_values (projects : List Project) :
    ∀ (d : List (ℤ × List ℤ)),
      (∀ k v, dlookup k d = some v → v = []) →
      ∀ k v, dlookup k (projects.foldl (fun d p => dinsert p.id [] d) d) = some v →
        v = [] := by
  induction projects with
  | nil => intro d hd k v h; exact hd k v h
  | cons p ps ih =>
    intro d hd k v h
    simp only [List.foldl_cons] at h
    refine ih (dinsert p.id [] d) ?_ k v h
    intro j w hw
    by_cases hj : j = p.id
    · rw [hj, dlookup_dinsert_self] at hw
      exact (Option.some.injEq _ _).mp hw |>.symm ▸ rfl
    · rw [dlookup_dinsert_ne _ _ hj] at hw
      exact hd j w hw

theorem mockSolve_student_assignments (students : List Student)
    (projects : List Project) :
    (mockSolve students projects).student_assignments =
      (mockFinal students projects).student_assignments := by
  unfold mockSolve
  by_cases h :
      (mockFinal students projects).student_assignments.length = students.length <;>
    simp [h]

theorem mockSolve_assignments (students : List Student) (projects : List Project) :
    (mockSolve students projects).assignments =
      (mockFinal students projects).assignments := by
  unfold mockSolve
  by_cases h :
      (mockFinal students projects).student_assignments.length = students.length <;>
    simp [h]

theorem mockSolve_objective (students : List Student) (projects : List Project) :
    (mockSolve students projects).objective_value =
      (mockFinal students projects).obj_val := by
  unfold mockSolve
  by_cases h :
      (mockFinal students projects).student_assignments.length = students.length <;>
    simp [h]

theorem mockSolve_status (students : List Student) (projects : List Project) :
    (mockSolve students projects).status =
      if (mockFinal students projects).student_assignments.length = students.length
      then "OPTIMAL (MOCK)" else "INFEASIBLE (MOCK)" := by
  unfold mockSolve
  by_cases h :
      (mockFinal students projects).student_assignments.length = students.length <;>
    simp [h]

/-! ### Claims C1, C3 and C10 about the greedy fallback -/

/-- Claim C1, counterexample: on an instance where one student stays
unassigned the fallback reports the string status `INFEASIBLE (MOCK)` — an
infeasible-branded status, not `HEURISTIC_PARTIAL` and not anything distinct
from infeasibility, contradicting the claim's status contract. -/
theorem mock_partial_status_counterexample :
    dlookup 2 ((mockSolve [⟨1, "a", [(101, 5)], []⟩, ⟨2, "b", [], []⟩]
        [⟨101, "P", 0, 1⟩]).student_assignments) = none ∧
    (mockSolve [⟨1, "a", [(101, 5)], []⟩, ⟨2, "b", [], []⟩]
        [⟨101, "P", 0, 1⟩]).status = "INFEASIBLE (MOCK)" ∧
    (mockSolve [⟨1, "a", [(101, 5)], []⟩, ⟨2, "b", [], []⟩]
        [⟨101, "P", 0, 1⟩]).status ≠ "HEURISTIC_PARTIAL" ∧
    (mockSolve [⟨1, "a", [(101, 5)], []⟩, ⟨2, "b", [], []⟩]
        [⟨101, "P", 0, 1⟩]).status ≠ "HEURISTIC_OK" := by
  refine ⟨by decide, by decide, by decide, by decide⟩

/-- Claim C1 as amended: with pairwise distinct student ids, the greedy
fallback reports status `OPTIMAL (MOCK)` exactly when the student-assignment
map covers every student and `INFEASIBLE (MOCK)` otherwise; the statuses
`HEURISTIC_OK`/`HEURISTIC_PARTIAL` of the spec never occur, and the partial
case is branded as infeasible rather than kept distinct from it. -/
theorem mock_status_covers_amended (students : List Student)
    (projects : List Project) (hnd : (students.map Student.id).Nodup) :
    (mockSolve students projects).status =
      if ∀ s ∈ students,
          (dlookup s.id (mockSolve students projects).student_assignments).isSome = true
      then "OPTIMAL (MOCK)" else "INFEASIBLE (MOCK)" := by
  have hperm := sortStudentsById_perm students
  have hndS : ((sortStudentsById students).map Student.id).Nodup :=
    ((hperm.map Student.id).nodup_iff).mpr hnd
  obtain ⟨hiff, -, -, -⟩ := mockFold_sa_spec projects (sortStudentsById students)
    { assignments := projects.foldl (fun d p => dinsert p.id [] d) [],
      student_assignments := [], obj_val := 0 }
    (by simp [dkeys]) hndS (by simp [dkeys])
  rw [mockSolve_status, mockSolve_student_assignments]
  have hlen : (sortStudentsById students).length = students.length := hperm.length_eq
  have hcov : (∀ s ∈ sortStudentsById students,
        s.id ∈ dkeys (mockFinal students projects).student_assignments) ↔
      (∀ s ∈ students,
        (dlookup s.id (mockFinal students projects).student_assignments).isSome = true) := by
    constructor
    · intro h s hs
      rw [dlookup_isSome_iff]
      exact h s (hperm.mem_iff.mpr hs)
    · intro h s hs
      rw [← dlookup_isSome_iff]
      exact h s (hperm.mem_iff.mp hs)
  have hiff1 : ((mockFinal students projects).student_assignments.length =
      0 + (sortStudentsById students).length) ↔
      (∀ s ∈ sortStudentsById students,
        s.id ∈ dkeys (mockFinal students projects).student_assignments) := hiff
  have hiff2 : ((mockFinal students projects).student_assignments.length =
      students.length) ↔
      (∀ s ∈ students,
        (dlookup s.id (mockFinal students projects).student_assignments).isSome = true) := by
    rw [← hcov]
    constructor
    · intro h
      exact hiff1.mp (by omega)
    · intro h
      have := hiff1.mpr h
      omega
  by_cases h : (mockFinal students projects).student_assignments.length = students.length
  · rw [if_pos h, if_pos (hiff2.mp h)]
  · rw [if_neg h, if_neg (fun hc => h (hiff2.mpr hc))]

/-- Witness for the amended claim C1 at a concrete instance. -/
theorem mock_status_covers_amended_witness :
    ((([⟨1, "a", [(101, 5)], []⟩, ⟨2, "b", [], []⟩] : List Student).map
        Student.id).Nodup) ∧
    (mockSolve [⟨1, "a", [(101, 5)], []⟩, ⟨2, "b", [], []⟩] [⟨101, "P", 0, 2⟩]).status =
      if ∀ s ∈ ([⟨1, "a", [(101, 5)], []⟩, ⟨2, "b", [], []⟩] : List Student),
          (dlookup s.id (mockSolve [⟨1, "a", [(101, 5)], []⟩, ⟨2, "b", [], []⟩]
            [⟨101, "P", 0, 2⟩]).student_assignments).isSome = true
      then "OPTIMAL (MOCK)" else "INFEASIBLE (MOCK)" :=
  ⟨by decide, mock_status_covers_amended _ _ (by decide)⟩

/-- Claim C3: the greedy fallback coincides with the reference greedy
algorithm of spec §4.4 — students in ascending id order, each to its
highest-scored project with spare capacity (ignoring incompatibilities),
else the first project in declaration order with room at score 0 — and on
the spec's scenario it assigns student 1 to project 101 and student 3 to
project 102 with total objective at least 19. -/
theorem greedy_equals_reference :
    (∀ students projects,
      (mockSolve students projects).student_assignments =
          (refSolve students projects).student_assignments ∧
      (mockSolve students projects).assignments =
          (refSolve students projects).assignments ∧
      (mockSolve students projects).objective_value =
          (refSolve students projects).obj_val) ∧
    dlookup 1 ((mockSolve
      [⟨1, "s1", [(101, 10), (102, 3)], []⟩, ⟨2, "s2", [(101, 5), (102, 8)], []⟩,
       ⟨3, "s3", [(101, 7), (102, 9)], []⟩]
      [⟨101, "A", 1, 2⟩, ⟨102, "B", 1, 2⟩]).student_assignments) = some 101 ∧
    dlookup 3 ((mockSolve
      [⟨1, "s1", [(101, 10), (102, 3)], []⟩, ⟨2, "s2", [(101, 5), (102, 8)], []⟩,
       ⟨3, "s3", [(101, 7), (102, 9)], []⟩]
      [⟨101, "A", 1, 2⟩, ⟨102, "B", 1, 2⟩]).student_assignments) = some 102 ∧
    (mockSolve
      [⟨1, "s1", [(101, 10), (102, 3)], []⟩, ⟨2, "s2", [(101, 5), (102, 8)], []⟩,
       ⟨3, "s3", [(101, 7), (102, 9)], []⟩]
      [⟨101, "A", 1, 2⟩, ⟨102, "B", 1, 2⟩]).objective_value ≥ 19 := by
  refine ⟨fun students projects => ?_, by decide, by decide, ?_⟩
  · rw [mockSolve_student_assignments, mockSolve_assignments, mockSolve_objective,
      mockFinal_eq_refSolve]
    exact ⟨rfl, rfl, rfl⟩
  · norm_num [mockSolve, mockFinal, mockStep, pickPreferred, pickFallback,
      recordAssignment, sortStudentsById, insertById, sortPrefsDesc,
      insertByScoreDesc, prefHasRoom, findProject, assignedCount, dinsert, dlookup]

/-- Claim C10: with pairwise distinct project ids and non-negative maximum
capacities, the greedy fallback never assigns more than `capacity_max`
students to a project — a student is only appended while the count is
strictly below the cap. -/
theorem mock_respects_capacity_max (students : List Student)
    (projects : List Project) (hnd : (projects.map Project.id).Nodup)
    (hcap : ∀ p ∈ projects, 0 ≤ p.capacity_max) :
    ∀ p ∈ projects,
      assignedCount (mockSolve students projects).assignments p.id ≤
        p.capacity_max := by
  intro p hp
  rw [mockSolve_assignments]
  refine mockFold_capacity projects hnd (sortStudentsById students) _ ?_ p hp
  intro q hq
  have hval := initAssignments_values projects [] (by simp [dlookup]) q.id
  have hgoal : assignedCount
      (projects.foldl (fun d p => dinsert p.id [] d) ([] : List (ℤ × List ℤ)))
      q.id ≤ q.capacity_max := by
    unfold assignedCount
    cases hlk : dlookup q.id
        (projects.foldl (fun d p => dinsert p.id [] d) ([] : List (ℤ × List ℤ))) with
    | none =>
      simpa using hcap q hq
    | some v =>
      rw [hval v hlk]
      simpa using hcap q hq
  exact hgoal

/-- Witness for claim C10 at a concrete instance. -/
theorem mock_respects_capacity_max_witness :
    ((([⟨101, "A", 1, 2⟩, ⟨102, "B", 1, 2⟩] : List Project).map Project.id).Nodup) ∧
    (∀ p ∈ ([⟨101, "A", 1, 2⟩, ⟨102, "B", 1, 2⟩] : List Project), 0 ≤ p.capacity_max) ∧
    (∀ p ∈ ([⟨101, "A", 1, 2⟩, ⟨102, "B", 1, 2⟩] : List Project),
      assignedCount ((mockSolve
        [⟨1, "s1", [(101, 10), (102, 3)], []⟩, ⟨2, "s2", [(101, 5), (102, 8)], []⟩,
         ⟨3, "s3", [(101, 7), (102, 9)], []⟩]
        [⟨101, "A", 1, 2⟩, ⟨102, "B", 1, 2⟩]).assignments) p.id ≤ p.capacity_max) :=
  ⟨by decide, by decide, mock_respects_capacity_max _ _ (by decide) (by decide)⟩

/-! ### Claim C2: exception handling of the solve entry points -/

/-- Claim C2, counterexample: a non-`GurobiError` exception raised during the
engine call of the min-cost-flow solve is not caught — it propagates to the
caller instead of being turned into an error-status result. -/
theorem engine_exception_propagates_counterexample :
    minCostFlowSolve ⟨["Paris"], ["Train"], [], [], [], [], []⟩
      (.raised .otherExn "boom") = .error (.otherExn, "boom") := rfl

/-- Claim C2 as amended: the assignment solver catches every exception raised
during the engine call and returns a result whose status carries the marker
and the message (`Error: <msg>`); the min-cost-flow solver does so only for
engine (`GurobiError`) exceptions, with the marker in `status` and the message
in a separate `message` field — any other exception propagates to its caller. -/
theorem solve_error_status_amended :
    (∀ (students : List Student) (projects : List Project) (k : ExnKind)
      (msg : String),
      studentSolverSolve students projects true (.raised k msg) =
        .ok ⟨"Error: " ++ msg, 0, [], [], 0⟩) ∧
    (∀ (d : FlowData) (msg : String),
      minCostFlowSolve d (.raised .gurobiError msg) =
        .ok ⟨"Error", none, none, none, some msg⟩) :=
  ⟨fun _ _ _ _ => rfl, fun _ _ => rfl⟩

/-! ### Claim C9: structure of the min-cost multi-modal flow model -/

theorem foldl_inner_eq_flatMap {γ δ σ : Type} (f : σ → δ → σ) (g : γ → List δ) :
    ∀ (l : List γ) (init : σ),
      l.foldl (fun acc x => (g x).foldl f acc) init = (l.flatMap g).foldl f init := by
  intro l
  induction l with
  | nil => intro init; rfl
  | cons x t ih =>
    intro init
    rw [List.foldl_cons, List.flatMap_cons, List.foldl_append, ih]

theorem dinsert_eq_append {α β : Type} [DecidableEq α] (k : α) (v : β)
    (d : List (α × β)) (h : k ∉ dkeys d) : dinsert k v d = d ++ [(k, v)] := by
  induction d with
  | nil => rfl
  | cons p t ih =>
    obtain ⟨a, b⟩ := p
    rw [dkeys_cons] at h
    have hak : ¬ a = k := fun hh => h (hh ▸ List.mem_cons_self a (dkeys t))
    simp only [dinsert, if_neg hak, List.cons_append, List.cons.injEq, true_and]
    exact ih (fun hm => h (List.mem_cons_of_mem a hm))

theorem foldl_dinsert_eq_append {α β : Type} [DecidableEq α] (val : α → β) :
    ∀ (keys : List α) (d : List (α × β)), keys.Nodup →
      (∀ k ∈ keys, k ∉ dkeys d) →
      keys.foldl (fun d k => dinsert k (val k) d) d =
        d ++ keys.map (fun k => (k, val k)) := by
  intro keys
  induction keys with
  | nil => intro d _ _; simp
  | cons k ks ih =>
    intro d hnd hfresh
    rw [List.foldl_cons, dinsert_eq_append k (val k) d (hfresh k (by simp)),
      ih (d ++ [(k, val k)]) (List.nodup_cons.mp hnd).2 ?_]
    · simp
    · intro j hj
      have h1 : j ∉ dkeys d := hfresh j (List.mem_cons_of_mem k hj)
      have h2 : j ≠ k := fun hh => (List.nodup_cons.mp hnd).1 (hh ▸ hj)
      have hkeys : dkeys (d ++ [(k, val k)]) = dkeys d ++ [k] := by simp [dkeys]
      rw [hkeys]
      intro hmem
      rcases List.mem_append.mp hmem with hmem | hmem
      · exact h1 hmem
      · exact h2 (List.mem_singleton.mp hmem)

/-- The key set of the flow model's variable dict: all (origin, destination,
mode) triples drawn from the declared arcs and modes. -/
theorem flowVars_eq (d : FlowData)
    (hnd : (d.arcs.flatMap fun ij =>
      d.modes.map fun k => ((ij.1, ij.2, k) : FlowKey)).Nodup) :
    flowVars d =
      (d.arcs.flatMap fun ij => d.modes.map fun k => ((ij.1, ij.2, k) : FlowKey)).map
        (fun key => (key, ⟨.integer, 0, none⟩)) := by
  have step1 : flowVars d = d.arcs.foldl (fun acc ij =>
      (d.modes.map fun k => ((ij.1, ij.2, k) : FlowKey)).foldl
        (fun acc key => dinsert key (⟨.integer, 0, none⟩ : VarDecl) acc) acc) [] := by
    unfold flowVars
    congr 1
    funext acc ij
    rw [List.foldl_map]
  have step2 : flowVars d =
      ((d.arcs.flatMap fun ij => d.modes.map fun k => ((ij.1, ij.2, k) : FlowKey)).foldl
        (fun acc key => dinsert key (⟨.integer, 0, none⟩ : VarDecl) acc) []) := by
    rw [step1]
    exact foldl_inner_eq_flatMap _ _ d.arcs []
  rw [step2]
  have h3 := foldl_dinsert_eq_append (fun _ : FlowKey => (⟨.integer, 0, none⟩ : VarDecl))
    (d.arcs.flatMap fun ij => d.modes.map fun k => ((ij.1, ij.2, k) : FlowKey)) [] hnd
    (by simp [dkeys])
  simpa using h3

theorem nodup_flowKeys (arcs : List (String × String)) (modes : List String)
    (h1 : arcs.Nodup) (h2 : modes.Nodup) :
    (arcs.flatMap fun ij => modes.map fun k => ((ij.1, ij.2, k) : FlowKey)).Nodup := by
  rw [List.nodup_flatMap]
  constructor
  · intro ij _
    exact h2.map (fun a b hab => by simpa using hab)
  · refine h1.imp ?_
    intro a b hab
    intro key hka hkb
    rcases List.mem_map.mp hka with ⟨k1, -, hk1⟩
    rcases List.mem_map.mp hkb with ⟨k2, -, hk2⟩
    apply hab
    have heq : (a.1, a.2, k1) = (b.1, b.2, k2) := hk1.trans hk2.symm
    have hcomp : a.1 = b.1 ∧ a.2 = b.2 ∧ k1 = k2 := by simpa using heq
    exact Prod.ext hcomp.1 hcomp.2.1

theorem evalLin_append {κ : Type} (v : κ → ℚ) (l1 l2 : List (ℚ × κ)) :
    evalLin v (l1 ++ l2) = evalLin v l1 + evalLin v l2 := by
  simp [evalLin]

theorem evalLin_map_pair {κ : Type} (v : κ → ℚ) (c : ℚ) (keys : List κ) :
    evalLin v (keys.map fun k => (c, k)) = c * (keys.map v).sum := by
  induction keys with
  | nil => simp [evalLin]
  | cons k t ih =>
    simp only [List.map_cons, evalLin, List.sum_cons] at ih ⊢
    rw [ih, mul_add]

theorem outflowCoeffs_eq (d : FlowData) (i : String) (c : ℚ) :
    outflowCoeffs d i c =
      ((d.hubs.filter (fun j => decide ((i, j) ∈ d.arcs))).flatMap fun j =>
        d.modes.map fun k => ((i, j, k) : FlowKey)).map (fun key => (c, key)) := by
  unfold outflowCoeffs
  rw [List.map_flatMap]
  apply List.flatMap_congr
  intro j hj
  rw [List.map_map]
  congr 1

theorem inflowCoeffs_eq (d : FlowData) (i : String) (c : ℚ) :
    inflowCoeffs d i c =
      ((d.hubs.filter (fun j => decide ((j, i) ∈ d.arcs))).flatMap fun j =>
        d.modes.map fun k => ((j, i, k) : FlowKey)).map (fun key => (c, key)) := by
  unfold inflowCoeffs
  rw [List.map_flatMap]
  apply List.flatMap_congr
  intro j hj
  rw [List.map_map]
  congr 1

theorem outKeys_perm (d : FlowData) (i : String) (hh : d.hubs.Nodup)
    (ha : d.arcs.Nodup) (hend : ∀ ij ∈ d.arcs, ij.2 ∈ d.hubs) :
    List.Perm (d.hubs.filter (fun j => decide ((i, j) ∈ d.arcs)))
      ((d.arcs.filter (fun ij => ij.1 == i)).map Prod.snd) := by
  refine (List.perm_ext_iff_of_nodup (hh.filter _) ?_).mpr ?_
  · refine (List.nodup_map_iff_inj_on (ha.filter _)).mpr ?_
    intro x hx y hy hxy
    have hx1 : x.1 = i := by simpa using (List.mem_filter.mp hx).2
    have hy1 : y.1 = i := by simpa using (List.mem_filter.mp hy).2
    exact Prod.ext (hx1.trans hy1.symm) hxy
  · intro j
    simp only [List.mem_filter, List.mem_map, decide_eq_true_eq, beq_iff_eq]
    constructor
    · rintro ⟨hjh, hmem⟩
      exact ⟨(i, j), ⟨hmem, rfl⟩, rfl⟩
    · rintro ⟨ij, ⟨hmem, h1⟩, rfl⟩
      refine ⟨hend ij hmem, ?_⟩
      have : ij = (i, ij.2) := Prod.ext h1 rfl
      rw [← this]
      exact hmem

theorem inKeys_perm (d : FlowData) (i : String) (hh : d.hubs.Nodup)
    (ha : d.arcs.Nodup) (hend : ∀ ij ∈ d.arcs, ij.1 ∈ d.hubs) :
    List.Perm (d.hubs.filter (fun j => decide ((j, i) ∈ d.arcs)))
      ((d.arcs.filter (fun ij => ij.2 == i)).map Prod.fst) := by
  refine (List.perm_ext_iff_of_nodup (hh.filter _) ?_).mpr ?_
  · refine (List.nodup_map_iff_inj_on (ha.filter _)).mpr ?_
    intro x hx y hy hxy
    have hx2 : x.2 = i := by simpa using (List.mem_filter.mp hx).2
    have hy2 : y.2 = i := by simpa using (List.mem_filter.mp hy).2
    exact Prod.ext hxy (hx2.trans hy2.symm)
  · intro j
    simp only [List.mem_filter, List.mem_map, decide_eq_true_eq, beq_iff_eq]
    constructor
    · rintro ⟨hjh, hmem⟩
      exact ⟨(j, i), ⟨hmem, rfl⟩, rfl⟩
    · rintro ⟨ij, ⟨hmem, h2⟩, rfl⟩
      refine ⟨hend ij hmem, ?_⟩
      have : ij = (ij.1, i) := Prod.ext rfl h2
      rw [← this]
      exact hmem

theorem evalLin_outflowCoeffs (d : FlowData) (v : FlowKey → ℚ) (i : String)
    (c : ℚ) (hh : d.hubs.Nodup) (ha : d.arcs.Nodup)
    (hend : ∀ ij ∈ d.arcs, ij.2 ∈ d.hubs) :
    evalLin v (outflowCoeffs d i c) = c * specOutflow d v i := by
  rw [outflowCoeffs_eq, evalLin_map_pair]
  congr 1
  have hperm := outKeys_perm d i hh ha hend
  have hp2 := List.Perm.flatMap_right
    (fun j => d.modes.map fun k => ((i, j, k) : FlowKey)) hperm
  rw [(hp2.map v).sum_eq, List.flatMap_map]
  unfold specOutflow
  rw [List.map_flatMap]
  congr 1
  apply List.flatMap_congr
  intro ij hij
  have h1 : ij.1 = i := by simpa using (List.mem_filter.mp hij).2
  rw [List.map_map]
  congr 1
  funext k
  simp [Function.comp, h1]

theorem evalLin_inflowCoeffs (d : FlowData) (v : FlowKey → ℚ) (i : String)
    (c : ℚ) (hh : d.hubs.Nodup) (ha : d.arcs.Nodup)
    (hend : ∀ ij ∈ d.arcs, ij.1 ∈ d.hubs) :
    evalLin v (inflowCoeffs d i c) = c * specInflow d v i := by
  rw [inflowCoeffs_eq, evalLin_map_pair]
  congr 1
  have hperm := inKeys_perm d i hh ha hend
  have hp2 := List.Perm.flatMap_right
    (fun j => d.modes.map fun k => ((j, i, k) : FlowKey)) hperm
  rw [(hp2.map v).sum_eq, List.flatMap_map]
  unfold specInflow
  rw [List.map_flatMap]
  congr 1
  apply List.flatMap_congr
  intro ij hij
  have h2 : ij.2 = i := by simpa using (List.mem_filter.mp hij).2
  rw [List.map_map]
  congr 1
  funext k
  simp [Function.comp, h2]

/-- Claim C9: for referentially intact, duplicate-free flow data the built
model has one non-negative integer variable per (origin, destination, mode)
triple; its constraint set is satisfied exactly when every hub balances
outflow minus inflow against its declared net demand (0 when undeclared),
every arc-mode flow is at most the declared capacity (0 when undeclared), and
every declared hub throughput cap bounds that hub's total inflow; and the
minimized objective is the sum of unit cost times flow over all arcs and
modes. -/
theorem flow_model_builds_as_specified (d : FlowData)
    (hh : d.hubs.Nodup) (ha : d.arcs.Nodup) (hm : d.modes.Nodup)
    (hend : ∀ ij ∈ d.arcs, ij.1 ∈ d.hubs ∧ ij.2 ∈ d.hubs) :
    (flowVars d =
        (d.arcs.flatMap fun ij => d.modes.map fun k => ((ij.1, ij.2, k) : FlowKey)).map
          (fun key => (key, ⟨.integer, 0, none⟩)) ∧
      (dkeys (flowVars d)).Nodup) ∧
    (∀ v : FlowKey → ℚ, (∀ c ∈ flowCons d, conHolds v c) ↔ FlowSpecHolds d v) ∧
    (∀ v : FlowKey → ℚ, evalLin v (flowObjCoeffs d) =
      (d.arcs.flatMap fun ij => d.modes.map fun k =>
        ((dlookup (ij.1, ij.2, k) d.costs).getD 0) * v (ij.1, ij.2, k)).sum) := by
  have hkeys := nodup_flowKeys d.arcs d.modes ha hm
  have hvars := flowVars_eq d hkeys
  refine ⟨⟨hvars, ?_⟩, ?_, ?_⟩
  · rw [hvars]
    unfold dkeys
    rw [List.map_map]
    have hcomp : (Prod.fst ∘ fun key : FlowKey =>
        (key, (⟨.integer, 0, none⟩ : VarDecl))) = id := by
      funext key
      rfl
    rw [hcomp, List.map_id]
    exact hkeys
  · intro v
    have hsplit : (∀ c ∈ flowCons d, conHolds v c) ↔
        ((∀ c ∈ flowBalanceCons d, conHolds v c) ∧
          (∀ c ∈ flowCapCons d, conHolds v c) ∧
          (∀ c ∈ flowHubCapCons d, conHolds v c)) := by
      unfold flowCons
      constructor
      · intro h
        exact ⟨fun c hc => h c (List.mem_append_left _ (List.mem_append_left _ hc)),
          fun c hc => h c (List.mem_append_left _ (List.mem_append_right _ hc)),
          fun c hc => h c (List.mem_append_right _ hc)⟩
      · rintro ⟨h1, h2, h3⟩ c hc
        rcases List.mem_append.mp hc with hc | hc
        · rcases List.mem_append.mp hc with hc | hc
          · exact h1 c hc
          · exact h2 c hc
        · exact h3 c hc
    rw [hsplit]
    unfold FlowSpecHolds
    refine and_congr ?_ (and_congr ?_ ?_)
    · unfold flowBalanceCons
      rw [List.forall_mem_map]
      refine forall₂_congr ?_
      intro i _
      have hshow : conHolds v
          (⟨outflowCoeffs d i 1 ++ inflowCoeffs d i (-1), .eq,
            (dlookup i d.demands).getD 0⟩ : LinCon FlowKey) =
          (evalLin v (outflowCoeffs d i 1 ++ inflowCoeffs d i (-1)) =
            (dlookup i d.demands).getD 0) := rfl
      rw [hshow, evalLin_append,
        evalLin_outflowCoeffs d v i 1 hh ha (fun ij h => (hend ij h).2),
        evalLin_inflowCoeffs d v i (-1) hh ha (fun ij h => (hend ij h).1)]
      constructor
      · intro h
        linarith
      · intro h
        linarith
    · unfold flowCapCons
      rw [List.forall_mem_flatMap]
      refine forall₂_congr ?_
      intro ij _
      rw [List.forall_mem_map]
      refine forall₂_congr ?_
      intro k _
      have hshow : conHolds v
          (⟨[(1, (ij.1, ij.2, k))], .le,
            (dlookup (ij.1, ij.2, k) d.capacities).getD 0⟩ : LinCon FlowKey) =
          (evalLin v [(1, (ij.1, ij.2, k))] ≤
            (dlookup (ij.1, ij.2, k) d.capacities).getD 0) := rfl
      rw [hshow]
      unfold evalLin
      simp
    · unfold flowHubCapCons
      rw [List.forall_mem_map]
      have hhub : ∀ (i : String) (r : ℚ),
          conHolds v (⟨inflowCoeffs d i 1, .le, r⟩ : LinCon FlowKey) ↔
            specInflow d v i ≤ r := by
        intro i r
        have hshow : conHolds v (⟨inflowCoeffs d i 1, .le, r⟩ : LinCon FlowKey) =
            (evalLin v (inflowCoeffs d i 1) ≤ r) := rfl
        rw [hshow, evalLin_inflowCoeffs d v i 1 hh ha (fun ij h => (hend ij h).1),
          one_mul]
      constructor
      · intro h i hi cval hc
        have hp : (dlookup i d.hub_capacities).isSome = true := by
          rw [hc]
          rfl
        have hfm : i ∈ d.hubs.filter (fun i => (dlookup i d.hub_capacities).isSome) :=
          List.mem_filter.mpr ⟨hi, hp⟩
        have hc2 := (hhub i ((dlookup i d.hub_capacities).getD 0)).mp (h i hfm)
        rwa [hc, Option.getD_some] at hc2
      · intro h i hfm
        have hmf := List.mem_filter.mp hfm
        obtain ⟨cval, hc⟩ := Option.isSome_iff_exists.mp hmf.2
        refine (hhub i ((dlookup i d.hub_capacities).getD 0)).mpr ?_
        rw [hc, Option.getD_some]
        exact h i hmf.1 cval hc
  · intro v
    unfold flowObjCoeffs evalLin
    rw [List.map_flatMap]
    congr 1
    apply List.flatMap_congr
    intro ij hij
    rw [List.map_map]
    congr 1

/-- Witness for claim C9 at a concrete flow instance (the module's own test
case, reduced). -/
theorem flow_model_builds_as_specified_witness :
    (["Paris", "Lyon"] : List String).Nodup ∧
    ([("Paris", "Lyon")] : List (String × String)).Nodup ∧
    (["Train", "Bus"] : List String).Nodup ∧
    (∀ ij ∈ ([("Paris", "Lyon")] : List (String × String)),
      ij.1 ∈ (["Paris", "Lyon"] : List String) ∧
      ij.2 ∈ (["Paris", "Lyon"] : List String)) ∧
    (flowVars ⟨["Paris", "Lyon"], ["Train", "Bus"], [("Paris", "Lyon")],
        [("Paris", 100)], [(("Paris", "Lyon", "Train"), 80)],
        [(("Paris", "Lyon", "Train"), 50)], [("Lyon", 200)]⟩ =
      ((([("Paris", "Lyon")] : List (String × String)).flatMap fun ij =>
        (["Train", "Bus"] : List String).map fun k => ((ij.1, ij.2, k) : FlowKey)).map
          (fun key => (key, ⟨.integer, 0, none⟩)) : List (FlowKey × VarDecl))) :=
  ⟨by decide, by decide, by decide, by decide,
    ((flow_model_builds_as_specified _ (by decide) (by decide) (by decide)
      (by decide)).1).1⟩

/-! ### Claim C4: structure of the assignment MILP -/

theorem incompLoop_emitted_mono (students : List Student) (s1 : Student) :
    ∀ (rest : List ℤ) (st : List (ℤ × ℤ) × List (ℤ × ℤ)) (ab : ℤ × ℤ),
      ab ∈ st.2 → ab ∈ (incompLoop students s1 st rest).2 := by
  intro rest
  induction rest with
  | nil => intro st ab h; exact h
  | cons s2id t ih =>
    intro st ab h
    obtain ⟨processed, emitted⟩ := st
    by_cases hmem : sortPair s1.id s2id ∈ processed
    · simpa [incompLoop, hmem] using ih (processed, emitted) ab h
    · cases hfind : findStudent students s2id with
      | some s2 =>
        have h2 := ih (sortPair s1.id s2id :: processed, emitted ++ [(s1.id, s2id)])
          ab (List.mem_append_left _ h)
        simpa [incompLoop, hmem, hfind] using h2
      | none =>
        simpa [incompLoop, hmem, hfind] using ih (processed, emitted) ab h

theorem incompLoop_inv (students : List Student) (s1 : Student) :
    ∀ (rest : List ℤ) (st : List (ℤ × ℤ) × List (ℤ × ℤ)),
      PairInv st → PairInv (incompLoop students s1 st rest) := by
  intro rest
  induction rest with
  | nil => intro st h; exact h
  | cons s2id t ih =>
    intro st h
    obtain ⟨processed, emitted⟩ := st
    by_cases hmem : sortPair s1.id s2id ∈ processed
    · simpa [incompLoop, hmem] using ih (processed, emitted) h
    · cases hfind : findStudent students s2id with
      | some s2 =>
        have hnew : PairInv (sortPair s1.id s2id :: processed,
            emitted ++ [(s1.id, s2id)]) := by
          intro q hq
          rcases List.mem_cons.mp hq with rfl | hq
          · exact ⟨(s1.id, s2id), List.mem_append_right _ (by simp), rfl⟩
          · obtain ⟨ab, hab, habs⟩ := h q hq
            exact ⟨ab, List.mem_append_left _ hab, habs⟩
        simpa [incompLoop, hmem, hfind] using ih _ hnew
      | none =>
        simpa [incompLoop, hmem, hfind] using ih (processed, emitted) h

theorem incompLoop_sound (students : List Student) (s1 : Student)
    (hs1 : s1 ∈ students) :
    ∀ (rest : List ℤ) (st : List (ℤ × ℤ) × List (ℤ × ℤ)),
      (∀ x ∈ rest, x ∈ s1.incompatible_with) →
      (∀ ab ∈ st.2, GoodPair students ab) →
      ∀ ab ∈ (incompLoop students s1 st rest).2, GoodPair students ab := by
  intro rest
  induction rest with
  | nil => intro st _ h; exact h
  | cons s2id t ih =>
    intro st hrest h
    obtain ⟨processed, emitted⟩ := st
    have ht : ∀ x ∈ t, x ∈ s1.incompatible_with :=
      fun x hx => hrest x (List.mem_cons_of_mem _ hx)
    by_cases hmem : sortPair s1.id s2id ∈ processed
    · intro ab hab
      refine ih (processed, emitted) ht h ab ?_
      simpa [incompLoop, hmem] using hab
    · cases hfind : findStudent students s2id with
      | some s2 =>
        have hs2m : s2 ∈ students := List.mem_of_find?_eq_some hfind
        have hs2id : s2.id = s2id := by
          have := List.find?_some (hfind :
            students.find? (fun s => s.id == s2id) = some s2)
          simpa using this
        have hnew : ∀ ab ∈ emitted ++ [(s1.id, s2id)], GoodPair students ab := by
          intro ab hab
          rcases List.mem_append.mp hab with hab | hab
          · exact h ab hab
          · rw [List.mem_singleton.mp hab]
            exact ⟨s1, hs1, rfl, hrest s2id (by simp), s2, hs2m, hs2id⟩
        intro ab hab
        refine ih (sortPair s1.id s2id :: processed, emitted ++ [(s1.id, s2id)])
          ht hnew ab ?_
        simpa [incompLoop, hmem, hfind] using hab
      | none =>
        intro ab hab
        refine ih (processed, emitted) ht h ab ?_
        simpa [incompLoop, hmem, hfind] using hab

theorem incompLoop_complete (students : List Student) (s1 : Student) :
    ∀ (rest : List ℤ) (st : List (ℤ × ℤ) × List (ℤ × ℤ)),
      PairInv st →
      ∀ s2id ∈ rest, (findStudent students s2id).isSome = true →
      ∃ ab ∈ (incompLoop students s1 st rest).2,
        sortPair ab.1 ab.2 = sortPair s1.id s2id := by
  intro rest
  induction rest with
  | nil => intro st _ s2id h; simp at h
  | cons x t ih =>
    intro st hinv s2id hmem hfind
    obtain ⟨processed, emitted⟩ := st
    rcases List.mem_cons.mp hmem with rfl | hmemt
    · by_cases hproc : sortPair s1.id s2id ∈ processed
      · obtain ⟨ab, hab, habs⟩ := hinv (sortPair s1.id s2id) hproc
        refine ⟨ab, ?_, habs⟩
        have hstep : incompLoop students s1 (processed, emitted) (s2id :: t) =
            incompLoop students s1 (processed, emitted) t := by
          simp [incompLoop, hproc]
        rw [hstep]
        exact incompLoop_emitted_mono students s1 t (processed, emitted) ab hab
      · obtain ⟨s2, hs2⟩ := Option.isSome_iff_exists.mp hfind
        have hstep : incompLoop students s1 (processed, emitted) (s2id :: t) =
            incompLoop students s1
              (sortPair s1.id s2id :: processed, emitted ++ [(s1.id, s2id)]) t := by
          simp [incompLoop, hproc, hs2]
        refine ⟨(s1.id, s2id), ?_, rfl⟩
        rw [hstep]
        exact incompLoop_emitted_mono students s1 t _ _
          (List.mem_append_right _ (by simp))
    · by_cases hproc : sortPair s1.id x ∈ processed
      · have hstep : incompLoop students s1 (processed, emitted) (x :: t) =
            incompLoop students s1 (processed, emitted) t := by
          simp [incompLoop, hproc]
        rw [hstep]
        exact ih (processed, emitted) hinv s2id hmemt hfind
      · cases hfx : findStudent students x with
        | some sx =>
          have hstep : incompLoop students s1 (processed, emitted) (x :: t) =
              incompLoop students s1
                (sortPair s1.id x :: processed, emitted ++ [(s1.id, x)]) t := by
            simp [incompLoop, hproc, hfx]
          rw [hstep]
          refine ih _ ?_ s2id hmemt hfind
          intro q hq
          rcases List.mem_cons.mp hq with rfl | hq
          · exact ⟨(s1.id, x), List.mem_append_right _ (by simp), rfl⟩
          · obtain ⟨ab, hab, habs⟩ := hinv q hq
            exact ⟨ab, List.mem_append_left _ hab, habs⟩
        | none =>
          have hstep : incompLoop students s1 (processed, emitted) (x :: t) =
              incompLoop students s1 (processed, emitted) t := by
            simp [incompLoop, hproc, hfx]
          rw [hstep]
          exact ih (processed, emitted) hinv s2id hmemt hfind

theorem incompFold_emitted_mono (students : List Student) :
    ∀ (S : List Student) (st : List (ℤ × ℤ) × List (ℤ × ℤ)) (ab : ℤ × ℤ),
      ab ∈ st.2 →
      ab ∈ (S.foldl (fun st s1 => incompLoop students s1 st s1.incompatible_with)
        st).2 := by
  intro S
  induction S with
  | nil => intro st ab h; exact h
  | cons s T ih =>
    intro st ab h
    simp only [List.foldl_cons]
    exact ih _ ab
      (incompLoop_emitted_mono students s s.incompatible_with st ab h)

theorem incompFold_inv (students : List Student) :
    ∀ (S : List Student) (st : List (ℤ × ℤ) × List (ℤ × ℤ)),
      PairInv st →
      PairInv (S.foldl (fun st s1 => incompLoop students s1 st s1.incompatible_with)
        st) := by
  intro S
  induction S with
  | nil => intro st h; exact h
  | cons s T ih =>
    intro st h
    simp only [List.foldl_cons]
    exact ih _ (incompLoop_inv students s s.incompatible_with st h)

theorem incompFold_sound (students : List Student) :
    ∀ (S : List Student) (st : List (ℤ × ℤ) × List (ℤ × ℤ)),
      (∀ s ∈ S, s ∈ students) →
      (∀ ab ∈ st.2, GoodPair students ab) →
      ∀ ab ∈ (S.foldl (fun st s1 => incompLoop students s1 st s1.incompatible_with)
        st).2, GoodPair students ab := by
  intro S
  induction S with
  | nil => intro st _ h; exact h
  | cons s T ih =>
    intro st hS h
    simp only [List.foldl_cons]
    exact ih _ (fun x hx => hS x (List.mem_cons_of_mem _ hx))
      (incompLoop_sound students s (hS s (by simp)) s.incompatible_with st
        (fun x hx => hx) h)

theorem incompFold_complete (students : List Student) :
    ∀ (S : List Student) (st : List (ℤ × ℤ) × List (ℤ × ℤ)),
      PairInv st →
      ∀ s1 ∈ S, ∀ s2id ∈ s1.incompatible_with,
        (findStudent students s2id).isSome = true →
        ∃ ab ∈ (S.foldl (fun st s1 => incompLoop students s1 st s1.incompatible_with)
          st).2, sortPair ab.1 ab.2 = sortPair s1.id s2id := by
  intro S
  induction S with
  | nil => intro st _ s1 h; simp at h
  | cons s T ih =>
    intro st hinv s1 hs1 s2id hs2id hfind
    simp only [List.foldl_cons]
    rcases List.mem_cons.mp hs1 with rfl | hs1T
    · obtain ⟨ab, hab, habs⟩ :=
        incompLoop_complete students s1 s1.incompatible_with st hinv s2id hs2id hfind
      exact ⟨ab, incompFold_emitted_mono students T _ ab hab, habs⟩
    · exact ih _ (incompLoop_inv students s s.incompatible_with st hinv)
        s1 hs1T s2id hs2id hfind

theorem incompPairs_sound (students : List Student) :
    ∀ ab ∈ incompPairs students, GoodPair students ab := by
  intro ab hab
  exact incompFold_sound students students ([], []) (fun s h => h)
    (by simp) ab hab

theorem incompPairs_complete (students : List Student) {s1 : Student}
    (hs1 : s1 ∈ students) {s2id : ℤ} (hs2id : s2id ∈ s1.incompatible_with)
    {s2 : Student} (hs2 : s2 ∈ students) (hseq : s2.id = s2id) :
    ∃ ab ∈ incompPairs students, sortPair ab.1 ab.2 = sortPair s1.id s2id := by
  have hfind : (findStudent students s2id).isSome = true := by
    unfold findStudent
    rw [List.find?_isSome]
    exact ⟨s2, hs2, by simp [hseq]⟩
  exact incompFold_complete students students ([], []) (by intro q hq; simp at hq)
    s1 hs1 s2id hs2id hfind

theorem sortPair_eq_cases {a b c d : ℤ} (h : sortPair a b = sortPair c d) :
    (a = c ∧ b = d) ∨ (a = d ∧ b = c) := by
  unfold sortPair at h
  by_cases h1 : a ≤ b <;> by_cases h2 : c ≤ d <;> simp [h1, h2] at h
  · exact Or.inl h
  · exact Or.inr ⟨h.1, h.2⟩
  · exact Or.inr ⟨h.2, h.1⟩
  · exact Or.inl ⟨h.2, h.1⟩

theorem evalLin_map_coeff {γ κ : Type} (v : κ → ℚ) (c : ℚ) (f : γ → κ)
    (l : List γ) :
    evalLin v (l.map fun x => (c, f x)) = c * (l.map fun x => v (f x)).sum := by
  induction l with
  | nil => simp [evalLin]
  | cons x t ih =>
    simp only [List.map_cons, evalLin, List.sum_cons] at ih ⊢
    rw [ih, mul_add]

theorem asgVars_eq (students : List Student) (projects : List Project)
    (hnd : (students.flatMap fun s =>
      projects.map fun p => ((s.id, p.id) : ℤ × ℤ)).Nodup) :
    asgVars students projects =
      (students.flatMap fun s => projects.map fun p => ((s.id, p.id) : ℤ × ℤ)).map
        (fun key => (key, ⟨.binary, 0, some 1⟩)) := by
  have step1 : asgVars students projects = students.foldl (fun d s =>
      (projects.map fun p => ((s.id, p.id) : ℤ × ℤ)).foldl
        (fun d key => dinsert key (⟨.binary, 0, some 1⟩ : VarDecl) d) d) [] := by
    unfold asgVars
    congr 1
    funext d s
    rw [List.foldl_map]
  have step2 : asgVars students projects =
      ((students.flatMap fun s => projects.map fun p => ((s.id, p.id) : ℤ × ℤ)).foldl
        (fun d key => dinsert key (⟨.binary, 0, some 1⟩ : VarDecl) d) []) := by
    rw [step1]
    exact foldl_inner_eq_flatMap _ _ students []
  rw [step2]
  have h3 := foldl_dinsert_eq_append (fun _ : ℤ × ℤ => (⟨.binary, 0, some 1⟩ : VarDecl))
    (students.flatMap fun s => projects.map fun p => ((s.id, p.id) : ℤ × ℤ)) [] hnd
    (by simp [dkeys])
  simpa using h3

theorem nodup_asgKeys (students : List Student) (projects : List Project)
    (hs : (students.map Student.id).Nodup) (hp : (projects.map Project.id).Nodup) :
    (students.flatMap fun s => projects.map fun p => ((s.id, p.id) : ℤ × ℤ)).Nodup := by
  rw [List.nodup_flatMap]
  constructor
  · intro s _
    have heq : (projects.map fun p => ((s.id, p.id) : ℤ × ℤ)) =
        (projects.map Project.id).map (fun i => (s.id, i)) := by
      simp [List.map_map, Function.comp]
    rw [heq]
    exact hp.map (fun a b hab => by simpa using hab)
  · have hpair : students.Pairwise (fun a b => a.id ≠ b.id) :=
      List.pairwise_map.mp hs
    refine hpair.imp ?_
    intro a b hne key hka hkb
    rcases List.mem_map.mp hka with ⟨p1, -, h1⟩
    rcases List.mem_map.mp hkb with ⟨p2, -, h2⟩
    apply hne
    have heq : ((a.id, p1.id) : ℤ × ℤ) = (b.id, p2.id) := h1.trans h2.symm
    simpa using congrArg Prod.fst heq

theorem asgIncomp_iff (students : List Student) (projects : List Project)
    (v : ℤ × ℤ → ℚ) :
    (∀ c ∈ asgIncompCons students projects, conHolds v c) ↔
      (∀ s1 ∈ students, ∀ s2id ∈ s1.incompatible_with, ∀ s2 ∈ students,
        s2.id = s2id → ∀ p ∈ projects,
          v (s1.id, p.id) + v (s2.id, p.id) ≤ 1) := by
  constructor
  · intro h s1 hs1 s2id hs2id s2 hs2 hseq p hp
    obtain ⟨ab, hab, habs⟩ := incompPairs_complete students hs1 hs2id hs2 hseq
    have hc : (⟨[(1, (ab.1, p.id)), (1, (ab.2, p.id))], .le, 1⟩ : LinCon (ℤ × ℤ)) ∈
        asgIncompCons students projects := by
      unfold asgIncompCons
      rw [List.mem_flatMap]
      exact ⟨ab, hab, List.mem_map.mpr ⟨p, hp, rfl⟩⟩
    have hcon := h _ hc
    have hcon2 : v (ab.1, p.id) + v (ab.2, p.id) ≤ 1 := by
      have hshow : conHolds v
          (⟨[(1, (ab.1, p.id)), (1, (ab.2, p.id))], .le, 1⟩ : LinCon (ℤ × ℤ)) =
          (evalLin v [(1, (ab.1, p.id)), (1, (ab.2, p.id))] ≤ 1) := rfl
      rw [hshow] at hcon
      simpa [evalLin] using hcon
    rcases sortPair_eq_cases habs with ⟨ha, hb⟩ | ⟨ha, hb⟩
    · rw [ha, hb] at hcon2
      rw [hseq]
      exact hcon2
    · rw [ha, hb] at hcon2
      rw [hseq]
      linarith
  · intro h c hc
    unfold asgIncompCons at hc
    rw [List.mem_flatMap] at hc
    obtain ⟨ab, hab, hcm⟩ := hc
    rcases List.mem_map.mp hcm with ⟨p, hp, rfl⟩
    obtain ⟨t1, ht1, hab1, hab2, t2, ht2, ht2id⟩ := incompPairs_sound students ab hab
    have hcon := h t1 ht1 ab.2 hab2 t2 ht2 ht2id p hp
    rw [ht2id, ← hab1] at hcon
    have hshow : conHolds v
        (⟨[(1, (ab.1, p.id)), (1, (ab.2, p.id))], .le, 1⟩ : LinCon (ℤ × ℤ)) =
        (evalLin v [(1, (ab.1, p.id)), (1, (ab.2, p.id))] ≤ 1) := rfl
    rw [hshow]
    simpa [evalLin] using hcon

/-- Claim C4: for duplicate-free student and project ids the assignment model
has exactly one binary variable per (student, project) pair; its constraint
set is satisfied exactly when every student's variables sum to 1, every
project's assigned count lies within `[capacity_min, capacity_max]`, and for
every declared incompatibility between existing students the two indicator
variables of every project sum to at most 1; and the maximized objective sums
preference scores with missing preferences contributing 0. -/
theorem assignment_model_builds_as_specified (students : List Student)
    (projects : List Project) (hs : (students.map Student.id).Nodup)
    (hp : (projects.map Project.id).Nodup) :
    (asgVars students projects =
        (students.flatMap fun s => projects.map fun p => ((s.id, p.id) : ℤ × ℤ)).map
          (fun key => (key, ⟨.binary, 0, some 1⟩)) ∧
      (dkeys (asgVars students projects)).Nodup) ∧
    (∀ v : ℤ × ℤ → ℚ, (∀ c ∈ asgCons students projects, conHolds v c) ↔
      ((∀ s ∈ students, (projects.map fun p => v (s.id, p.id)).sum = 1) ∧
       (∀ p ∈ projects,
         (p.capacity_min : ℚ) ≤ (students.map fun s => v (s.id, p.id)).sum ∧
         (students.map fun s => v (s.id, p.id)).sum ≤ (p.capacity_max : ℚ)) ∧
       (∀ s1 ∈ students, ∀ s2id ∈ s1.incompatible_with, ∀ s2 ∈ students,
         s2.id = s2id → ∀ p ∈ projects,
           v (s1.id, p.id) + v (s2.id, p.id) ≤ 1))) ∧
    (∀ v : ℤ × ℤ → ℚ, evalLin v (asgObjCoeffs students projects) =
      (students.flatMap fun s => projects.map fun p =>
        ((dlookup p.id s.preferences).getD 0 : ℚ) * v (s.id, p.id)).sum) := by
  have hkeys := nodup_asgKeys students projects hs hp
  have hvars := asgVars_eq students projects hkeys
  refine ⟨⟨hvars, ?_⟩, ?_, ?_⟩
  · rw [hvars]
    unfold dkeys
    rw [List.map_map]
    have hcomp : (Prod.fst ∘ fun key : ℤ × ℤ =>
        (key, (⟨.binary, 0, some 1⟩ : VarDecl))) = id := by
      funext key
      rfl
    rw [hcomp, List.map_id]
    exact hkeys
  · intro v
    have hsplit : (∀ c ∈ asgCons students projects, conHolds v c) ↔
        ((∀ c ∈ (students.map fun s =>
            (⟨projects.map fun p => ((1 : ℚ), (s.id, p.id)), .eq, 1⟩ :
              LinCon (ℤ × ℤ))), conHolds v c) ∧
          (∀ c ∈ (projects.flatMap fun p =>
            [⟨students.map fun s => ((1 : ℚ), (s.id, p.id)), .ge,
              (p.capacity_min : ℚ)⟩,
             ⟨students.map fun s => ((1 : ℚ), (s.id, p.id)), .le,
              (p.capacity_max : ℚ)⟩]), conHolds v c) ∧
          (∀ c ∈ asgIncompCons students projects, conHolds v c)) := by
      unfold asgCons
      constructor
      · intro h
        exact ⟨fun c hc => h c (List.mem_append_left _ (List.mem_append_left _ hc)),
          fun c hc => h c (List.mem_append_left _ (List.mem_append_right _ hc)),
          fun c hc => h c (List.mem_append_right _ hc)⟩
      · rintro ⟨h1, h2, h3⟩ c hc
        rcases List.mem_append.mp hc with hc | hc
        · rcases List.mem_append.mp hc with hc | hc
          · exact h1 c hc
          · exact h2 c hc
        · exact h3 c hc
    rw [hsplit]
    refine and_congr ?_ (and_congr ?_ (asgIncomp_iff students projects v))
    · rw [List.forall_mem_map]
      refine forall₂_congr ?_
      intro s _
      have hshow : conHolds v
          (⟨projects.map fun p => ((1 : ℚ), (s.id, p.id)), .eq, 1⟩ :
            LinCon (ℤ × ℤ)) =
          (evalLin v (projects.map fun p => ((1 : ℚ), (s.id, p.id))) = 1) := rfl
      rw [hshow, evalLin_map_coeff v 1 (fun p => ((s.id, p.id) : ℤ × ℤ)) projects,
        one_mul]
    · rw [List.forall_mem_flatMap]
      refine forall₂_congr ?_
      intro p _
      rw [List.forall_mem_cons, List.forall_mem_singleton]
      have hge : conHolds v
          (⟨students.map fun s => ((1 : ℚ), (s.id, p.id)), .ge,
            (p.capacity_min : ℚ)⟩ : LinCon (ℤ × ℤ)) =
          (evalLin v (students.map fun s => ((1 : ℚ), (s.id, p.id))) ≥
            (p.capacity_min : ℚ)) := rfl
      have hle : conHolds v
          (⟨students.map fun s => ((1 : ℚ), (s.id, p.id)), .le,
            (p.capacity_max : ℚ)⟩ : LinCon (ℤ × ℤ)) =
          (evalLin v (students.map fun s => ((1 : ℚ), (s.id, p.id))) ≤
            (p.capacity_max : ℚ)) := rfl
      rw [hge, hle, evalLin_map_coeff v 1 (fun s => ((s.id, p.id) : ℤ × ℤ)) students,
        one_mul]
  · intro v
    unfold asgObjCoeffs evalLin
    rw [List.map_flatMap]
    congr 1
    apply List.flatMap_congr
    intro s hsm
    rw [List.map_map]
    rfl

/-- Witness for claim C4 at a concrete instance with one incompatibility. -/
theorem assignment_model_builds_as_specified_witness :
    ((([⟨1, "a", [(101, 5)], [2]⟩, ⟨2, "b", [], []⟩] : List Student).map
        Student.id).Nodup) ∧
    ((([⟨101, "P", 0, 2⟩] : List Project).map Project.id).Nodup) ∧
    (asgVars [⟨1, "a", [(101, 5)], [2]⟩, ⟨2, "b", [], []⟩] [⟨101, "P", 0, 2⟩] =
      ((([⟨1, "a", [(101, 5)], [2]⟩, ⟨2, "b", [], []⟩] : List Student).flatMap
        fun s => ([⟨101, "P", 0, 2⟩] : List Project).map fun p =>
          ((s.id, p.id) : ℤ × ℤ)).map
        (fun key => (key, ⟨.binary, 0, some 1⟩)) : List ((ℤ × ℤ) × VarDecl))) :=
  ⟨by decide, by decide,
    ((assignment_model_builds_as_specified _ _ (by decide) (by decide)).1).1⟩

/-! ### Claim C7: structure of the max-flow model -/

theorem foldl_dinsert_kv_eq_append {α β : Type} [DecidableEq α] :
    ∀ (l : List (α × β)) (d : List (α × β)), (l.map Prod.fst).Nodup →
      (∀ k ∈ l.map Prod.fst, k ∉ dkeys d) →
      l.foldl (fun d kv => dinsert kv.1 kv.2 d) d = d ++ l := by
  intro l
  induction l with
  | nil => intro d _ _; simp
  | cons kv t ih =>
    intro d hnd hfresh
    rw [List.map_cons] at hnd
    have hnd1 := List.nodup_cons.mp hnd
    rw [List.foldl_cons, dinsert_eq_append kv.1 kv.2 d (hfresh kv.1 (by simp))]
    have hstep := ih (d ++ [(kv.1, kv.2)]) hnd1.2 ?_
    · rw [hstep]
      simp
    · intro j hj
      have h1 : j ∉ dkeys d := hfresh j (by
        rw [List.map_cons]
        exact List.mem_cons_of_mem _ hj)
      have h2 : j ≠ kv.1 := fun hh => hnd1.1 (hh ▸ hj)
      have hkeys : dkeys (d ++ [(kv.1, kv.2)]) = dkeys d ++ [kv.1] := by
        simp [dkeys]
      rw [hkeys]
      intro hmem
      rcases List.mem_append.mp hmem with hmem | hmem
      · exact h1 hmem
      · exact h2 (List.mem_singleton.mp hmem)

theorem mfCapacities_eq (p : MaxFlowProblem)
    (hnd : (p.arcs.map fun a => (a.from_node, a.to_node)).Nodup) :
    mfCapacities p =
      p.arcs.map fun a => ((a.from_node, a.to_node), a.capacity) := by
  unfold mfCapacities
  have hfold : p.arcs.foldl (fun d a => dinsert (a.from_node, a.to_node) a.capacity d) [] =
      (p.arcs.map fun a => ((a.from_node, a.to_node), a.capacity)).foldl
        (fun d kv => dinsert kv.1 kv.2 d) [] := by
    rw [List.foldl_map]
  rw [hfold]
  have hnd2 : ((p.arcs.map fun a => ((a.from_node, a.to_node), a.capacity)).map
      Prod.fst).Nodup := by
    rw [List.map_map]
    simpa [Function.comp] using hnd
  have h := foldl_dinsert_kv_eq_append
    (p.arcs.map fun a => ((a.from_node, a.to_node), a.capacity)) [] hnd2
    (by simp [dkeys])
  simpa using h

/-- Claim C7, counterexample: with two declared arcs sharing the same
endpoints, only one variable exists (keyed by the endpoint pair, with the last
declared capacity as bound), and a feasible valuation makes the first arc's
extracted flow exceed that arc's declared capacity. -/
theorem maxflow_capacity_counterexample :
    (mfVars ⟨["A", "B"], [⟨"A", "B", 5⟩, ⟨"A", "B", 10⟩], "A", "B"⟩).length = 1 ∧
    (([⟨"A", "B", 5⟩, ⟨"A", "B", 10⟩] : List MFArc)).length = 2 ∧
    mfFeasible ⟨["A", "B"], [⟨"A", "B", 5⟩, ⟨"A", "B", 10⟩], "A", "B"⟩
      (fun _ => 10) ∧
    mfExtractFlow (fun _ => 10) (⟨"A", "B", 5⟩ : MFArc) = 10 ∧
    ¬ (mfExtractFlow (fun _ => 10) (⟨"A", "B", 5⟩ : MFArc) ≤
        (⟨"A", "B", 5⟩ : MFArc).capacity) := by
  refine ⟨by decide, by decide, ⟨by decide, by decide⟩, by decide, by decide⟩

/-- Claim C7 as amended: when the declared arcs have pairwise distinct
endpoint pairs, the built model has one continuous variable per arc bounded
by `[0, capacity]`, every feasible valuation conserves flow exactly (hence
within 1e-6) at each non-source/non-sink node and keeps every arc's extracted
flow within `[0, its declared capacity]`, and the maximized objective is the
total flow on arcs leaving the source. -/
theorem maxflow_model_amended (p : MaxFlowProblem)
    (hnd : (p.arcs.map fun a => (a.from_node, a.to_node)).Nodup) :
    (mfVars p = p.arcs.map fun a =>
      ((a.from_node, a.to_node), ⟨.continuous, 0, some a.capacity⟩)) ∧
    (∀ v : String × String → ℚ, mfFeasible p v →
      (∀ k ∈ p.nodes, k ≠ p.source → k ≠ p.sink →
        specMfInflow p v k = specMfOutflow p v k ∧
        |specMfInflow p v k - specMfOutflow p v k| ≤ 1 / 1000000) ∧
      (∀ a ∈ p.arcs, 0 ≤ mfExtractFlow v a ∧ mfExtractFlow v a ≤ a.capacity)) ∧
    (∀ v : String × String → ℚ, evalLin v (mfObjCoeffs p) =
      ((p.arcs.filter (fun a => a.from_node == p.source)).map
        fun a => mfExtractFlow v a).sum) := by
  have hcap := mfCapacities_eq p hnd
  refine ⟨?_, ?_, ?_⟩
  · unfold mfVars
    rw [hcap, List.map_map]
    rfl
  · intro v hv
    obtain ⟨hbounds, hcons⟩ := hv
    constructor
    · intro k hk hks hkt
      have hmemf : k ∈ p.nodes.filter (fun k => !(k == p.source || k == p.sink)) := by
        rw [List.mem_filter]
        refine ⟨hk, ?_⟩
        simp [hks, hkt]
      have hc := hcons _ (List.mem_map.mpr ⟨k, hmemf, rfl⟩)
      have hshow : conHolds v
          (⟨(((mfCapacities p).filter (fun kv => kv.1.2 == k)).map
              fun kv => ((1 : ℚ), kv.1)) ++
            (((mfCapacities p).filter (fun kv => kv.1.1 == k)).map
              fun kv => ((-1 : ℚ), kv.1)),
            .eq, 0⟩ : LinCon (String × String)) =
          (evalLin v ((((mfCapacities p).filter (fun kv => kv.1.2 == k)).map
              fun kv => ((1 : ℚ), kv.1)) ++
            (((mfCapacities p).filter (fun kv => kv.1.1 == k)).map
              fun kv => ((-1 : ℚ), kv.1))) = 0) := rfl
      rw [hshow, evalLin_append,
        evalLin_map_coeff v 1 Prod.fst ((mfCapacities p).filter (fun kv => kv.1.2 == k)),
        evalLin_map_coeff v (-1) Prod.fst ((mfCapacities p).filter (fun kv => kv.1.1 == k)),
        one_mul] at hc
      have hin : (((mfCapacities p).filter (fun kv => kv.1.2 == k)).map
          fun kv => v kv.1).sum = specMfInflow p v k := by
        rw [hcap, List.filter_map, List.map_map]
        unfold specMfInflow
        rfl
      have hout : (((mfCapacities p).filter (fun kv => kv.1.1 == k)).map
          fun kv => v kv.1).sum = specMfOutflow p v k := by
        rw [hcap, List.filter_map, List.map_map]
        unfold specMfOutflow
        rfl
      rw [hin, hout] at hc
      have heq : specMfInflow p v k = specMfOutflow p v k := by linarith
      refine ⟨heq, ?_⟩
      rw [heq]
      simp
    · intro a ha
      have hmem : ((a.from_node, a.to_node), a.capacity) ∈ mfCapacities p := by
        rw [hcap]
        exact List.mem_map.mpr ⟨a, ha, rfl⟩
      have hb := hbounds _ hmem
      exact ⟨hb.1, hb.2⟩
  · intro v
    unfold mfObjCoeffs
    rw [evalLin_map_coeff v 1 Prod.fst, one_mul, hcap, List.filter_map, List.map_map]
    rfl

/-- Witness for the amended claim C7 at a concrete instance. -/
theorem maxflow_model_amended_witness :
    ((([⟨"A", "B", 5⟩, ⟨"B", "C", 7⟩] : List MFArc).map
        fun a => (a.from_node, a.to_node)).Nodup) ∧
    (mfVars ⟨["A", "B", "C"], [⟨"A", "B", 5⟩, ⟨"B", "C", 7⟩], "A", "C"⟩ =
      ([⟨"A", "B", 5⟩, ⟨"B", "C", 7⟩] : List MFArc).map fun a =>
        ((a.from_node, a.to_node), ⟨.continuous, 0, some a.capacity⟩)) :=
  ⟨by decide, (maxflow_model_amended _ (by decide)).1⟩

/-! ### Claim C5: self-loops and input validation -/

theorem readPairRows_self (gs : List String) :
    ∀ (rows : List (Option String × Option String)) (l : List (String × String))
      (u : String), readPairRows gs rows = some l → (some u, some u) ∈ rows →
      ¬ u = "" → (u, u) ∈ l ∧ u ∈ gs := by
  intro rows
  induction rows with
  | nil =>
    intro l u h hmem
    simp at hmem
  | cons row t ih =>
    intro l u h hmem hu
    obtain ⟨uc, vc⟩ := row
    rcases List.mem_cons.mp hmem with heq | hmemt
    · injection heq with h1 h2
      subst h1
      subst h2
      simp only [readPairRows] at h
      rw [if_neg (by simpa using hu)] at h
      by_cases hdang : u ∉ gs ∨ u ∉ gs
      · rw [if_pos hdang] at h
        exact absurd h (by simp)
      · rw [if_neg hdang] at h
        have hgs : u ∈ gs := by
          rcases not_or.mp hdang with ⟨hh, -⟩
          exact not_not.mp hh
        cases hrec : readPairRows gs t with
        | none =>
          rw [hrec] at h
          exact absurd h (by simp)
        | some rest =>
          rw [hrec] at h
          have hl : (u, u) :: rest = l := by simpa using h
          exact ⟨hl ▸ List.mem_cons_self _ _, hgs⟩
    · cases uc with
      | none =>
        have h2 : readPairRows gs t = some l := by simpa [readPairRows] using h
        exact ih l u h2 hmemt hu
      | some u0 =>
        cases vc with
        | none =>
          have h2 : readPairRows gs t = some l := by simpa [readPairRows] using h
          exact ih l u h2 hmemt hu
        | some v0 =>
          simp only [readPairRows] at h
          by_cases hblank : u0 = "" ∨ v0 = ""
          · rw [if_pos hblank] at h
            exact ih l u h hmemt hu
          · rw [if_neg hblank] at h
            by_cases hdang : u0 ∉ gs ∨ v0 ∉ gs
            · rw [if_pos hdang] at h
              exact absurd h (by simp)
            · rw [if_neg hdang] at h
              cases hrec : readPairRows gs t with
              | none =>
                rw [hrec] at h
                exact absurd h (by simp)
              | some rest =>
                rw [hrec] at h
                have hl : (u0, v0) :: rest = l := by simpa using h
                obtain ⟨hmr, hgs⟩ := ih rest u hrec hmemt hu
                exact ⟨hl ▸ List.mem_cons_of_mem _ hmr, hgs⟩

/-- Claim C5, counterexample: a wire from a gate to itself passes validation
unreported — `get_data_from_ui` succeeds and returns the self-loop among the
edges. -/
theorem selfloop_not_rejected_counterexample :
    getDataFromUi [⟨some "A", some (.num 10)⟩] [(some "A", some "A")] [] =
      some ([("A", 10)], [("A", "A")], []) := by rfl

theorem readGateRows_invalid :
    ∀ (gates : List GateRow) (gid : String),
      (⟨some gid, some .invalid⟩ : GateRow) ∈ gates → ¬ gid = "" →
      readGateRows gates = none := by
  intro gates
  induction gates with
  | nil =>
    intro gid h
    simp at h
  | cons row t ih =>
    intro gid hmem hgid
    rcases List.mem_cons.mp hmem with heq | hmemt
    · rw [← heq]
      simp only [readGateRows]
      rw [if_neg hgid]
    · obtain ⟨ic, cc⟩ := row
      cases ic with
      | none => simpa [readGateRows] using ih gid hmemt hgid
      | some g =>
        cases cc with
        | none => simpa [readGateRows] using ih gid hmemt hgid
        | some c =>
          by_cases hg : g = ""
          · simpa [readGateRows, hg] using ih gid hmemt hgid
          · cases c with
            | invalid => simp [readGateRows, hg]
            | num q => simp [readGateRows, hg, ih gid hmemt hgid]

theorem readPairRows_dangling (gs : List String) :
    ∀ (rows : List (Option String × Option String)) (u v : String),
      (some u, some v) ∈ rows → ¬ u = "" → ¬ v = "" →
      (u ∉ gs ∨ v ∉ gs) → readPairRows gs rows = none := by
  intro rows
  induction rows with
  | nil =>
    intro u v h
    simp at h
  | cons row t ih =>
    intro u v hmem hu hv hdang
    obtain ⟨uc, vc⟩ := row
    rcases List.mem_cons.mp hmem with heq | hmemt
    · injection heq with h1 h2
      subst h1
      subst h2
      simp only [readPairRows]
      rw [if_neg (by simp [hu, hv]), if_pos hdang]
    · cases uc with
      | none => simpa [readPairRows] using ih u v hmemt hu hv hdang
      | some u0 =>
        cases vc with
        | none => simpa [readPairRows] using ih u v hmemt hu hv hdang
        | some v0 =>
          simp only [readPairRows]
          by_cases hblank : u0 = "" ∨ v0 = ""
          · rw [if_pos hblank]
            exact ih u v hmemt hu hv hdang
          · rw [if_neg hblank]
            by_cases hd0 : u0 ∉ gs ∨ v0 ∉ gs
            · rw [if_pos hd0]
            · rw [if_neg hd0]
              simp [ih u v hmemt hu hv hdang]

/-- Claim C5 as amended: validation rejects duplicate gate ids, non-numeric
costs, and wire or conflict endpoints that reference a non-existing gate, but
it does not reject self-loops — a wire or a conflict pair whose two endpoints
name the same existing gate is silently accepted into the returned model
whenever validation succeeds. -/
theorem selfloop_accepted_amended :
    (∀ (gates : List GateRow)
       (wires conflicts : List (Option String × Option String))
       (nodes : List (String × ℚ)) (edges incomp : List (String × String))
       (u : String),
       getDataFromUi gates wires conflicts = some (nodes, edges, incomp) →
       ¬ u = "" →
       ((some u, some u) ∈ wires → (u, u) ∈ edges ∧ u ∈ nodes.map Prod.fst) ∧
       ((some u, some u) ∈ conflicts →
         (u, u) ∈ incomp ∧ u ∈ nodes.map Prod.fst)) ∧
    (∀ (gates : List GateRow)
       (wires conflicts : List (Option String × Option String))
       (nodes : List (String × ℚ)),
       readGateRows gates = some nodes → ¬ (nodes.map Prod.fst).Nodup →
       getDataFromUi gates wires conflicts = none) ∧
    (∀ (gates : List GateRow)
       (wires conflicts : List (Option String × Option String)) (gid : String),
       (⟨some gid, some .invalid⟩ : GateRow) ∈ gates → ¬ gid = "" →
       getDataFromUi gates wires conflicts = none) ∧
    (∀ (gates : List GateRow)
       (wires conflicts : List (Option String × Option String))
       (nodes : List (String × ℚ)) (u v : String),
       readGateRows gates = some nodes →
       ((some u, some v) ∈ wires ∨ (some u, some v) ∈ conflicts) →
       ¬ u = "" → ¬ v = "" →
       (u ∉ nodes.map Prod.fst ∨ v ∉ nodes.map Prod.fst) →
       getDataFromUi gates wires conflicts = none) := by
  refine ⟨?_, ?_, ?_, ?_⟩
  · intro gates wires conflicts nodes edges incomp u hout hu
    cases hg : readGateRows gates with
    | none =>
      simp [getDataFromUi, hg] at hout
    | some nodes0 =>
      unfold getDataFromUi at hout
      rw [hg] at hout
      simp only [] at hout
      by_cases hndp : (nodes0.map Prod.fst).Nodup
      · rw [if_pos hndp] at hout
        cases hw : readPairRows (nodes0.map Prod.fst) wires with
        | none =>
          rw [hw] at hout
          exact absurd hout (by simp)
        | some edges0 =>
          rw [hw] at hout
          cases hcf : readPairRows (nodes0.map Prod.fst) conflicts with
          | none =>
            rw [hcf] at hout
            exact absurd hout (by simp)
          | some incomp0 =>
            rw [hcf] at hout
            have heq : nodes0 = nodes ∧ edges0 = edges ∧ incomp0 = incomp := by
              simpa using hout
            obtain ⟨he1, he2, he3⟩ := heq
            constructor
            · intro hmem
              rw [← he1, ← he2]
              exact readPairRows_self _ wires edges0 u hw hmem hu
            · intro hmem
              rw [← he1, ← he3]
              exact readPairRows_self _ conflicts incomp0 u hcf hmem hu
      · rw [if_neg hndp] at hout
        exact absurd hout (by simp)
  · intro gates wires conflicts nodes hg hndp
    unfold getDataFromUi
    rw [hg]
    simp only []
    rw [if_neg hndp]
  · intro gates wires conflicts gid hmem hgid
    have hg : readGateRows gates = none := readGateRows_invalid gates gid hmem hgid
    simp [getDataFromUi, hg]
  · intro gates wires conflicts nodes u v hg hmem hu hv hdang
    unfold getDataFromUi
    rw [hg]
    simp only []
    by_cases hndp : (nodes.map Prod.fst).Nodup
    · rw [if_pos hndp]
      rcases hmem with hmw | hmc
      · rw [readPairRows_dangling _ wires u v hmw hu hv hdang]
      · cases hw : readPairRows (nodes.map Prod.fst) wires with
        | none => rfl
        | some edges0 =>
          rw [readPairRows_dangling _ conflicts u v hmc hu hv hdang]
    · rw [if_neg hndp]

/-- Witness for the amended claim C5: on concrete tables, a self-loop wire and
a self-loop conflict both survive validation, while a duplicate gate id, a
non-numeric cost, a dangling wire endpoint and a dangling conflict endpoint
are each rejected. -/
theorem selfloop_accepted_amended_witness :
    (("A", "A") ∈ ([("A", "A")] : List (String × String)) ∧
      "A" ∈ ([("A", 10), ("B", 3)] : List (String × ℚ)).map Prod.fst) ∧
    (("B", "B") ∈ ([("B", "B")] : List (String × String)) ∧
      "B" ∈ ([("A", 10), ("B", 3)] : List (String × ℚ)).map Prod.fst) ∧
    getDataFromUi [⟨some "A", some (.num 10)⟩, ⟨some "A", some (.num 3)⟩]
      [] [] = none ∧
    getDataFromUi [⟨some "A", some .invalid⟩] [] [] = none ∧
    getDataFromUi [⟨some "A", some (.num 10)⟩] [(some "A", some "C")] [] =
      none ∧
    getDataFromUi [⟨some "A", some (.num 10)⟩] [] [(some "C", some "A")] =
      none :=
  ⟨(selfloop_accepted_amended.1
      [⟨some "A", some (.num 10)⟩, ⟨some "B", some (.num 3)⟩]
      [(some "A", some "A")] [(some "B", some "B")]
      [("A", 10), ("B", 3)] [("A", "A")] [("B", "B")] "A"
      (by rfl) (by decide)).1 (by decide),
    (selfloop_accepted_amended.1
      [⟨some "A", some (.num 10)⟩, ⟨some "B", some (.num 3)⟩]
      [(some "A", some "A")] [(some "B", some "B")]
      [("A", 10), ("B", 3)] [("A", "A")] [("B", "B")] "B"
      (by rfl) (by decide)).2 (by decide),
    selfloop_accepted_amended.2.1
      [⟨some "A", some (.num 10)⟩, ⟨some "A", some (.num 3)⟩] [] []
      [("A", 10), ("A", 3)] (by rfl) (by decide),
    selfloop_accepted_amended.2.2.1
      [⟨some "A", some .invalid⟩] [] [] "A" (by decide) (by decide),
    selfloop_accepted_amended.2.2.2
      [⟨some "A", some (.num 10)⟩] [(some "A", some "C")] []
      [("A", 10)] "A" "C" (by rfl) (Or.inl (by decide)) (by decide) (by decide)
      (Or.inr (by decide)),
    selfloop_accepted_amended.2.2.2
      [⟨some "A", some (.num 10)⟩] [] [(some "C", some "A")]
      [("A", 10)] "C" "A" (by rfl) (Or.inr (by decide)) (by decide) (by decide)
      (Or.inl (by decide))⟩

/-! ### Claim C6: JSON round-trip of the blending problem -/

theorem parseCompFields_roundtrip (comp : List (String × ℚ)) :
    parseCompFields (comp.map fun kv => (kv.1, Json.num kv.2)) = some comp := by
  induction comp with
  | nil => rfl
  | cons kv t ih =>
    simp [parseCompFields, ih]

theorem parseComposition_roundtrip (c : List (String × ℚ)) :
    parseComposition (compositionToJson c) = some c := by
  unfold parseComposition compositionToJson
  exact parseCompFields_roundtrip c

theorem joptNum_roundtrip (o : Option ℚ) :
    joptNum (some (optNumJson o)) = some o := by
  cases o <;> rfl

theorem parseRawMaterial_roundtrip (rm : RawMaterial) :
    parseRawMaterial (rmToJson rm) = some rm := by
  obtain ⟨name, cost, avail, comp, density, purity⟩ := rm
  simp [parseRawMaterial, rmToJson, jfield, dlookup, jstr, jnum, jnumD,
    parseComposition_roundtrip, Option.bind]

theorem parseRawMaterials_roundtrip (rms : List RawMaterial) :
    parseRawMaterials (rms.map rmToJson) = some rms := by
  induction rms with
  | nil => rfl
  | cons rm t ih =>
    simp [parseRawMaterials, parseRawMaterial_roundtrip, ih, Option.bind]

theorem parseElement_roundtrip (e : Element) :
    parseElement (elementToJson e) = some e := by
  obtain ⟨symbol, name, minp, maxp, target⟩ := e
  simp [parseElement, elementToJson, jfield, dlookup, jstr, jnum,
    joptNum_roundtrip, Option.bind]

theorem parseElements_roundtrip (es : List Element) :
    parseElements (es.map elementToJson) = some es := by
  induction es with
  | nil => rfl
  | cons e t ih =>
    simp [parseElements, parseElement_roundtrip, ih, Option.bind]

theorem parseAlloySpec_roundtrip (a : AlloySpecification) :
    parseAlloySpec (alloySpecToJson a) = some a := by
  obtain ⟨name, tw, elems, maxImp, minH, maxH, mpMin, mpMax⟩ := a
  simp [parseAlloySpec, alloySpecToJson, jfield, dlookup, jstr, jnum, jarr,
    jnumD, joptNum_roundtrip, parseElements_roundtrip, Option.bind]

/-- Claim C6: serializing a blending problem the way `save_to_json` does and
loading it back the way `load_from_json` does reproduces the problem exactly:
same name, raw materials (name, cost, availability, composition, density,
purity), alloy specification (target weight, elements with min/max/target
percentages, impurity cap, hardness and melting-point bounds), and additional
constraints. -/
theorem blending_json_roundtrip (p : BlendingProblem) :
    loadFromJson (problemToJson p) = some p := by
  obtain ⟨name, rms, spec, addc⟩ := p
  simp [loadFromJson, problemToJson, jfield, dlookup, jstr, jarr,
    parseRawMaterials_roundtrip, parseAlloySpec_roundtrip, Option.bind]

/-! ### Claim C8: structure of the blending model -/

theorem evalLin_map_fn {γ κ : Type} (v : κ → ℚ) (f : γ → ℚ) (key : γ → κ)
    (l : List γ) :
    evalLin v (l.map fun x => (f x, key x)) =
      (l.map fun x => f x * v (key x)).sum := by
  unfold evalLin
  rw [List.map_map]
  rfl

theorem evalLin_map_sub {γ κ : Type} (v : κ → ℚ) (f g : γ → ℚ) (key : γ → κ)
    (l : List γ) :
    evalLin v (l.map fun x => (f x - g x, key x)) =
      evalLin v (l.map fun x => (f x, key x)) -
        evalLin v (l.map fun x => (g x, key x)) := by
  induction l with
  | nil => simp [evalLin]
  | cons x t ih =>
    simp only [List.map_cons, evalLin, List.sum_cons] at ih ⊢
    rw [ih]
    ring

theorem sum_flatMap_eq {γ : Type} (f : γ → List ℚ) (l : List γ) :
    (l.flatMap f).sum = (l.map fun a => (f a).sum).sum := by
  induction l with
  | nil => rfl
  | cons x t ih =>
    simp [List.flatMap_cons, List.sum_append, ih]

theorem dlookup_mem {α β : Type} [DecidableEq α] {k : α} {v : β} :
    ∀ {l : List (α × β)}, dlookup k l = some v → (k, v) ∈ l := by
  intro l
  induction l with
  | nil => intro h; simp [dlookup] at h
  | cons p t ih =>
    intro h
    obtain ⟨a, b⟩ := p
    by_cases hak : a = k
    · rw [dlookup, if_pos hak] at h
      have hb : b = v := by simpa using h
      rw [← hak, hb]
      exact List.mem_cons_self _ _
    · rw [dlookup, if_neg hak] at h
      exact List.mem_cons_of_mem _ (ih h)

theorem getElementContent_nonneg {m : RawMaterial} {sym : String}
    (h : ∀ kv ∈ m.composition, 0 ≤ kv.2) : 0 ≤ getElementContent m sym := by
  unfold getElementContent
  cases hlk : dlookup sym m.composition with
  | none => simp
  | some a =>
    have hmem := dlookup_mem hlk
    simpa using h (sym, a) hmem

theorem getElementContent_le_100 {m : RawMaterial} {sym : String}
    (h : ∀ kv ∈ m.composition, 0 ≤ kv.2)
    (hsum : (m.composition.map Prod.snd).sum ≤ 100) :
    getElementContent m sym ≤ 100 := by
  unfold getElementContent
  cases hlk : dlookup sym m.composition with
  | none => simp
  | some a =>
    have hmem := dlookup_mem hlk
    have hmem2 : a ∈ m.composition.map Prod.snd :=
      List.mem_map.mpr ⟨(sym, a), hmem, rfl⟩
    have hle : a ≤ (m.composition.map Prod.snd).sum := by
      refine List.single_le_sum ?_ a hmem2
      intro y hy
      rcases List.mem_map.mp hy with ⟨kv, hkv, rfl⟩
      exact h kv hkv
    simpa using le_trans hle hsum

theorem sum_map_snd_factor (x : ℚ) (l : List (String × ℚ)) :
    (l.map fun kv => kv.2 / 100 * x).sum = (l.map Prod.snd).sum / 100 * x := by
  induction l with
  | nil => simp
  | cons kv t ih =>
    simp only [List.map_cons, List.sum_cons]
    rw [ih]
    ring

/-- Claim C8: for a blending problem with duplicate-free material names,
physically sensible compositions (entry percentages non-negative and summing
to at most 100 per material) and a non-negative target weight, the built model
has one continuous variable per raw material bounded by `[0, availability]`;
every valuation within bounds satisfying the built constraints makes the
total material weight equal the target weight, keeps each specified element's
weighted content within `[min%, max%]` of the total weight and exactly at
`target%` of it when an exact target is declared, and bounds the weight of
unspecified elements by the impurity cap; and the minimized objective is the
total material cost. -/
theorem blending_model_builds_as_specified (prob : BlendingProblem)
    (hnames : (prob.raw_materials.map RawMaterial.name).Nodup)
    (hcomp : ∀ m ∈ prob.raw_materials,
      (∀ kv ∈ m.composition, 0 ≤ kv.2) ∧ (m.composition.map Prod.snd).sum ≤ 100)
    (hw : 0 ≤ prob.alloy_spec.target_weight) :
    (blendVars prob = prob.raw_materials.map fun m =>
      (m.name, ⟨.continuous, 0, some m.availability⟩)) ∧
    (∀ v : String → ℚ, blendFeasible prob v →
      blendTotal prob v = prob.alloy_spec.target_weight ∧
      (∀ e ∈ prob.alloy_spec.elements,
        e.min_percent / 100 * blendTotal prob v ≤ elementContent prob e.symbol v ∧
        elementContent prob e.symbol v ≤ e.max_percent / 100 * blendTotal prob v ∧
        (∀ t, e.target_percent = some t →
          elementContent prob e.symbol v = t / 100 * blendTotal prob v)) ∧
      impurityContent prob v ≤
        prob.alloy_spec.max_impurities / 100 * blendTotal prob v) ∧
    (∀ v : String → ℚ, evalLin v (blendObjCoeffs prob) =
      (prob.raw_materials.map fun m => m.cost_per_kg * v m.name).sum) := by
  refine ⟨?_, ?_, ?_⟩
  · unfold blendVars
    have hfold : prob.raw_materials.foldl
        (fun d m => dinsert m.name (⟨.continuous, 0, some m.availability⟩ : VarDecl) d) [] =
        (prob.raw_materials.map fun m =>
          (m.name, (⟨.continuous, 0, some m.availability⟩ : VarDecl))).foldl
          (fun d kv => dinsert kv.1 kv.2 d) [] := by
      rw [List.foldl_map]
    rw [hfold]
    have hnd2 : ((prob.raw_materials.map fun m =>
        (m.name, (⟨.continuous, 0, some m.availability⟩ : VarDecl))).map
        Prod.fst).Nodup := by
      rw [List.map_map]
      simpa [Function.comp] using hnames
    have h := foldl_dinsert_kv_eq_append
      (prob.raw_materials.map fun m =>
        (m.name, (⟨.continuous, 0, some m.availability⟩ : VarDecl))) [] hnd2
      (by simp [dkeys])
    simpa using h
  · intro v hv
    obtain ⟨hbounds, hcons⟩ := hv
    have hx : ∀ m ∈ prob.raw_materials, 0 ≤ v m.name :=
      fun m hm => (hbounds m hm).1
    have hwc := hcons _ (List.mem_append_left _
      (List.mem_append_left _ (List.mem_singleton.mpr rfl)))
    have htot : blendTotal prob v = prob.alloy_spec.target_weight := by
      have hshow : conHolds v (blendWeightCon prob) =
          (evalLin v (prob.raw_materials.map fun m => ((1 : ℚ), m.name)) =
            prob.alloy_spec.target_weight) := rfl
      rw [hshow, evalLin_map_coeff v 1 RawMaterial.name, one_mul] at hwc
      exact hwc
    have htotnn : 0 ≤ blendTotal prob v := htot ▸ hw
    have hcontent : ∀ sym : String,
        evalLin v (prob.raw_materials.map fun m =>
          (getElementContent m sym / 100, m.name)) = elementContent prob sym v := by
      intro sym
      rw [evalLin_map_fn]
      rfl
    have hfrac : ∀ c : ℚ,
        evalLin v (prob.raw_materials.map fun m => (c / 100, m.name)) =
          c / 100 * blendTotal prob v := by
      intro c
      rw [evalLin_map_coeff v (c / 100) RawMaterial.name]
      rfl
    refine ⟨htot, ?_, ?_⟩
    · intro e he
      have hcnn : 0 ≤ elementContent prob e.symbol v := by
        refine List.sum_nonneg ?_
        intro y hy
        rcases List.mem_map.mp hy with ⟨m, hm, rfl⟩
        have h1 : 0 ≤ getElementContent m e.symbol :=
          getElementContent_nonneg (hcomp m hm).1
        have h2 := hx m hm
        positivity
      have hcletot : elementContent prob e.symbol v ≤ blendTotal prob v := by
        unfold elementContent blendTotal
        refine List.sum_le_sum ?_
        intro m hm
        have ha0 : 0 ≤ getElementContent m e.symbol :=
          getElementContent_nonneg (hcomp m hm).1
        have ha100 : getElementContent m e.symbol ≤ 100 :=
          getElementContent_le_100 (hcomp m hm).1 (hcomp m hm).2
        have hxm := hx m hm
        have hdiv : getElementContent m e.symbol / 100 ≤ 1 := by linarith
        calc getElementContent m e.symbol / 100 * v m.name
            ≤ 1 * v m.name := mul_le_mul_of_nonneg_right hdiv hxm
          _ = v m.name := one_mul _
      refine ⟨?_, ?_, ?_⟩
      · by_cases hmin : e.min_percent > 0
        · have hmem : (⟨prob.raw_materials.map fun m =>
              (getElementContent m e.symbol / 100 - e.min_percent / 100, m.name),
              .ge, 0⟩ : LinCon String) ∈ blendCons prob := by
            refine List.mem_append_left _ (List.mem_append_right _ ?_)
            rw [List.mem_flatMap]
            refine ⟨e, he, ?_⟩
            unfold elementConsFor
            rw [if_pos hmin]
            exact List.mem_append_left _ (List.mem_append_left _ (by simp))
          have hc := hcons _ hmem
          have hshow : conHolds v (⟨prob.raw_materials.map fun m =>
              (getElementContent m e.symbol / 100 - e.min_percent / 100, m.name),
              .ge, 0⟩ : LinCon String) =
              (evalLin v (prob.raw_materials.map fun m =>
                (getElementContent m e.symbol / 100 - e.min_percent / 100, m.name)) ≥
                0) := rfl
          rw [hshow, evalLin_map_sub, hcontent, hfrac] at hc
          linarith
        · have hminle : e.min_percent ≤ 0 := not_lt.mp hmin
          have hnonpos : e.min_percent / 100 * blendTotal prob v ≤ 0 := by
            have h1 : e.min_percent / 100 ≤ 0 := by linarith
            exact mul_nonpos_of_nonpos_of_nonneg h1 htotnn
          linarith
      · by_cases hmax : e.max_percent < 100
        · have hmem : (⟨prob.raw_materials.map fun m =>
              (getElementContent m e.symbol / 100 - e.max_percent / 100, m.name),
              .le, 0⟩ : LinCon String) ∈ blendCons prob := by
            refine List.mem_append_left _ (List.mem_append_right _ ?_)
            rw [List.mem_flatMap]
            refine ⟨e, he, ?_⟩
            unfold elementConsFor
            rw [if_pos hmax]
            exact List.mem_append_left _ (List.mem_append_right _ (by simp))
          have hc := hcons _ hmem
          have hshow : conHolds v (⟨prob.raw_materials.map fun m =>
              (getElementContent m e.symbol / 100 - e.max_percent / 100, m.name),
              .le, 0⟩ : LinCon String) =
              (evalLin v (prob.raw_materials.map fun m =>
                (getElementContent m e.symbol / 100 - e.max_percent / 100, m.name)) ≤
                0) := rfl
          rw [hshow, evalLin_map_sub, hcontent, hfrac] at hc
          linarith
        · have hge100 : (100 : ℚ) ≤ e.max_percent := not_lt.mp hmax
          have hone : (1 : ℚ) ≤ e.max_percent / 100 := by linarith
          have := le_mul_of_one_le_left htotnn hone
          linarith
      · intro t ht
        have hmem : (⟨prob.raw_materials.map fun m =>
            (getElementContent m e.symbol / 100 - t / 100, m.name),
            .eq, 0⟩ : LinCon String) ∈ blendCons prob := by
          refine List.mem_append_left _ (List.mem_append_right _ ?_)
          rw [List.mem_flatMap]
          refine ⟨e, he, ?_⟩
          unfold elementConsFor
          rw [ht]
          exact List.mem_append_right _ (by simp)
        have hc := hcons _ hmem
        have hshow : conHolds v (⟨prob.raw_materials.map fun m =>
            (getElementContent m e.symbol / 100 - t / 100, m.name),
            .eq, 0⟩ : LinCon String) =
            (evalLin v (prob.raw_materials.map fun m =>
              (getElementContent m e.symbol / 100 - t / 100, m.name)) = 0) := rfl
        rw [hshow, evalLin_map_sub, hcontent, hfrac] at hc
        linarith
    · have himpeq : evalLin v (prob.raw_materials.flatMap fun m =>
          (m.composition.filter (fun kv => decide (kv.1 ∉ specifiedSymbols prob))).map
            fun kv => (kv.2 / 100, m.name)) = impurityContent prob v := by
        unfold evalLin impurityContent
        rw [List.map_flatMap]
        congr 1
        apply List.flatMap_congr
        intro m hm
        rw [List.map_map]
        rfl
      by_cases himp : prob.alloy_spec.max_impurities < 100
      · have hmem : (⟨(prob.raw_materials.flatMap fun m =>
            (m.composition.filter (fun kv => decide (kv.1 ∉ specifiedSymbols prob))).map
              fun kv => (kv.2 / 100, m.name)) ++
            (prob.raw_materials.map fun m =>
              (-(prob.alloy_spec.max_impurities / 100), m.name)),
            .le, 0⟩ : LinCon String) ∈ blendCons prob := by
          refine List.mem_append_right _ ?_
          unfold impurityCons
          rw [if_pos himp]
          simp
        have hc := hcons _ hmem
        have hshow : conHolds v (⟨(prob.raw_materials.flatMap fun m =>
            (m.composition.filter (fun kv => decide (kv.1 ∉ specifiedSymbols prob))).map
              fun kv => (kv.2 / 100, m.name)) ++
            (prob.raw_materials.map fun m =>
              (-(prob.alloy_spec.max_impurities / 100), m.name)),
            .le, 0⟩ : LinCon String) =
            (evalLin v ((prob.raw_materials.flatMap fun m =>
              (m.composition.filter (fun kv => decide (kv.1 ∉ specifiedSymbols prob))).map
                fun kv => (kv.2 / 100, m.name)) ++
              (prob.raw_materials.map fun m =>
                (-(prob.alloy_spec.max_impurities / 100), m.name))) ≤ 0) := rfl
        rw [hshow, evalLin_append, himpeq,
          evalLin_map_coeff v (-(prob.alloy_spec.max_impurities / 100))
            RawMaterial.name] at hc
        have hfin : impurityContent prob v +
            -(prob.alloy_spec.max_impurities / 100) * blendTotal prob v ≤ 0 := hc
        linarith
      · have hge100 : (100 : ℚ) ≤ prob.alloy_spec.max_impurities := not_lt.mp himp
        have h1 : impurityContent prob v ≤ blendTotal prob v := by
          unfold impurityContent blendTotal
          rw [sum_flatMap_eq]
          refine List.sum_le_sum ?_
          intro m hm
          rw [sum_map_snd_factor]
          have hsub : ((m.composition.filter
              (fun kv => decide (kv.1 ∉ specifiedSymbols prob))).map Prod.snd).sum ≤
              (m.composition.map Prod.snd).sum := by
            refine List.Sublist.sum_le_sum ?_ ?_
            · exact (List.filter_sublist _).map _
            · intro y hy
              rcases List.mem_map.mp hy with ⟨kv, hkv, rfl⟩
              exact (hcomp m hm).1 kv hkv
          have hle100 : ((m.composition.filter
              (fun kv => decide (kv.1 ∉ specifiedSymbols prob))).map Prod.snd).sum ≤
              100 := le_trans hsub (hcomp m hm).2
          have hxm := hx m hm
          have hdiv : ((m.composition.filter
              (fun kv => decide (kv.1 ∉ specifiedSymbols prob))).map Prod.snd).sum /
              100 ≤ 1 := by linarith
          calc ((m.composition.filter
              (fun kv => decide (kv.1 ∉ specifiedSymbols prob))).map Prod.snd).sum /
                100 * v m.name
              ≤ 1 * v m.name := mul_le_mul_of_nonneg_right hdiv hxm
            _ = v m.name := one_mul _
        have hone : (1 : ℚ) ≤ prob.alloy_spec.max_impurities / 100 := by linarith
        have h2 := le_mul_of_one_le_left htotnn hone
        linarith
  · intro v
    unfold blendObjCoeffs
    exact evalLin_map_fn v RawMaterial.cost_per_kg RawMaterial.name
      prob.raw_materials

/-- Witness for claim C8 at a concrete one-material instance. -/
theorem blending_model_builds_as_specified_witness :
    ((([⟨"Iron", 5, 1000, [("Fe", 90)], 7.8, 100⟩] : List RawMaterial).map
      RawMaterial.name).Nodup) ∧
    (∀ m ∈ ([⟨"Iron", 5, 1000, [("Fe", 90)], 7.8, 100⟩] : List RawMaterial),
      (∀ kv ∈ m.composition, 0 ≤ kv.2) ∧ (m.composition.map Prod.snd).sum ≤ 100) ∧
    (0 ≤ (100 : ℚ)) ∧
    (blendVars ⟨"steel", [⟨"Iron", 5, 1000, [("Fe", 90)], 7.8, 100⟩],
        ⟨"alloy", 100, [⟨"Fe", "iron", 80, 100, none⟩], 2, none, none, none, none⟩,
        []⟩ =
      ([⟨"Iron", 5, 1000, [("Fe", 90)], 7.8, 100⟩] : List RawMaterial).map fun m =>
        (m.name, ⟨.continuous, 0, some m.availability⟩)) := by
  refine ⟨by decide, ?_, by norm_num, ?_⟩
  · intro m hm
    rcases List.mem_singleton.mp hm with rfl
    constructor
    · intro kv hkv
      rcases List.mem_singleton.mp hkv with rfl
      norm_num
    · norm_num
  · refine (blending_model_builds_as_specified _ (by decide) ?_ (by norm_num)).1
    intro m hm
    rcases List.mem_singleton.mp hm with rfl
    constructor
    · intro kv hkv
      rcases List.mem_singleton.mp hkv with rfl
      norm_num
    · norm_num

end ProjetRO
